import Mathlib

/-!
Verification of the order-book matching engine in `src/orderbook.cpp`.

Shallow embedding notes:

* `double price` is modelled as `ℚ`.  Every price in the program is compared
  with `<`, `>`, `=` only; the scenarios of the spec use decimal literals whose
  pairwise comparisons agree between binary doubles and exact rationals.
* `uint32_t` / `uint64_t` quantities and ids are modelled as `Nat`; the source
  only increments ids and subtracts `min`-clamped quantities, so no wrap-around
  is reachable for the values considered here.
* `std::shared_ptr<Order>` aliasing: the book's `order_map` and both priority
  queues hold pointers to the same mutable `Order` objects.  The model keeps a
  `heap : List Order` of every order object ever allocated (mutations go
  through it), while the queues hold `QEntry` tokens carrying the pointer's
  identity together with the two immutable fields the comparators read
  (`price`, `timestamp`), and `order_map` holds the registered ids.  The
  mutable field `remaining_quantity` is always resolved through `heap`.
* `std::priority_queue` with a strict-weak-order comparator pops a maximal
  element; since distinct orders always have distinct timestamps the order is
  a strict total order, so the queue is modelled as a list kept sorted with
  the best (maximal) element first, `push` = ordered insertion, `pop` = tail.
* `std::chrono::high_resolution_clock::now()` is modelled as a strictly
  increasing arrival counter `next_ts` (the spec: "a strictly increasing
  counter or high-resolution timestamp used only for tie-breaking").
* The `while` matching loops terminate because each iteration executes a trade
  of quantity `min(incoming.remaining, resting.remaining) ≥ 1`, so the
  incoming order's remaining strictly decreases; they are written with an
  explicit fuel argument that every caller instantiates with the incoming
  quantity, which dominates the iteration count (remaining decreases by at
  least one per iteration, fuel by exactly one, and the loop exits as soon as
  remaining is zero, so the fuel branch returning at `0` coincides with the
  `remaining == 0` exit).
-/

namespace Orderbook

/-- Mirrors `enum class OrderSide`. -/
inductive OrderSide where
  | BUY
  | SELL
deriving DecidableEq, Repr

/-- Mirrors `enum class OrderType`. -/
inductive OrderType where
  | LIMIT
  | MARKET
deriving DecidableEq, Repr

/-- Mirrors `struct Order` (the heap object behind `shared_ptr<Order>`).
`timestamp` is the arrival sequence number. -/
structure Order where
  id : Nat
  side : OrderSide
  type : OrderType
  price : ℚ
  quantity : Nat
  remaining_quantity : Nat
  timestamp : Nat
deriving DecidableEq, Repr

/-- Mirrors `struct Trade` (the execution timestamp plays no role in any
claim and is omitted; trades are anyway kept in execution order). -/
structure Trade where
  buyer_id : Nat
  seller_id : Nat
  price : ℚ
  quantity : Nat
deriving DecidableEq, Repr

/-- A priority-queue entry: the identity of a `shared_ptr<Order>` plus the two
immutable fields the comparators and the matching loops read directly.  The
mutable `remaining_quantity` is resolved through the heap (`remOf`). -/
structure QEntry where
  id : Nat
  price : ℚ
  ts : Nat
deriving DecidableEq, Repr

/-- Mirrors `class OrderBook`'s private state.  `heap` is the set of all
`Order` objects ever allocated (see the header comment), `order_map` the key
set of `std::map<uint64_t, shared_ptr<Order>> order_map`. -/
structure OrderBook where
  heap : List Order
  buy_orders : List QEntry
  sell_orders : List QEntry
  order_map : List Nat
  trades : List Trade
  next_order_id : Nat
  next_ts : Nat
deriving DecidableEq, Repr

/-- Mirrors the constructor: `next_order_id` starts at 1. -/
def emptyBook : OrderBook :=
  { heap := [], buy_orders := [], sell_orders := [], order_map := [],
    trades := [], next_order_id := 1, next_ts := 0 }

/-- Dereference: the `remaining_quantity` field of the order object with the
given id (0 if no such object exists, which never happens for ids held by the
queues or the map). -/
def remOf : List Order → Nat → Nat
  | [], _ => 0
  | o :: rest, i => if o.id = i then o.remaining_quantity else remOf rest i

/-- Mutation `p->remaining_quantity -= q` through the heap. -/
def decRem (heap : List Order) (i q : Nat) : List Order :=
  heap.map fun o =>
    if o.id = i then { o with remaining_quantity := o.remaining_quantity - q } else o

/-- Mutation `p->remaining_quantity = 0` through the heap (cancellation). -/
def setRemZero (heap : List Order) (i : Nat) : List Order :=
  heap.map fun o => if o.id = i then { o with remaining_quantity := 0 } else o

/-- Models `order_map.erase` on the key set. -/
def eraseId : List Nat → Nat → List Nat
  | [], _ => []
  | j :: rest, i => if j = i then eraseId rest i else j :: eraseId rest i

/-- Mirrors `struct BuyOrderComparator`: the strict-weak "less" used by the
max-heap of buy orders (`a` has lower priority than `b`). -/
def BuyOrderComparator (a b : QEntry) : Bool :=
  if a.price ≠ b.price then decide (a.price < b.price)
  else decide (a.ts > b.ts)

/-- Mirrors `struct SellOrderComparator`. -/
def SellOrderComparator (a b : QEntry) : Bool :=
  if a.price ≠ b.price then decide (a.price > b.price)
  else decide (a.ts > b.ts)

/-- Entry `a` outranks `b` in the buy queue: the comparator ranks `b` below `a`. -/
def buyOutranks (a b : QEntry) : Prop := BuyOrderComparator b a = true

/-- Entry `a` outranks `b` in the sell queue. -/
def sellOutranks (a b : QEntry) : Prop := SellOrderComparator b a = true

/-- Models `buy_orders.push`: ordered insertion keeping the maximal element (wrt
`BuyOrderComparator`) first — the observable behaviour of the `std`
priority queue under a strict total order. -/
def qInsertBuy (e : QEntry) : List QEntry → List QEntry
  | [] => [e]
  | h :: t => if BuyOrderComparator h e then e :: h :: t else h :: qInsertBuy e t

/-- Models `sell_orders.push`. -/
def qInsertSell (e : QEntry) : List QEntry → List QEntry
  | [] => [e]
  | h :: t => if SellOrderComparator h e then e :: h :: t else h :: qInsertSell e t

/-- One side of `clean_empty_orders`: pop completed orders from the top. -/
def cleanQueue (heap : List Order) : List QEntry → List QEntry
  | [] => []
  | e :: rest => if remOf heap e.id = 0 then cleanQueue heap rest else e :: rest

/-- Mirrors `OrderBook::clean_empty_orders`. -/
def clean_empty_orders (st : OrderBook) : OrderBook :=
  { st with buy_orders := cleanQueue st.heap st.buy_orders,
            sell_orders := cleanQueue st.heap st.sell_orders }

/-- The body shared by both buy-side matching loops: emit the trade
`(buyer = bid, seller = best.id, price = best->price, qty = q)`, decrement
both remaining quantities, erase the resting order from `order_map` if it is
now fully filled. -/
def execute_trade_buy (st : OrderBook) (bid : Nat) (best : QEntry) (q : Nat) :
    OrderBook :=
  { st with
    trades := st.trades ++ [⟨bid, best.id, best.price, q⟩],
    heap := decRem (decRem st.heap bid q) best.id q,
    order_map := if remOf st.heap best.id - q = 0
                 then eraseId st.order_map best.id else st.order_map }

/-- The body shared by both sell-side matching loops: the trade is
`(buyer = best.id, seller = sid, price = best->price, qty = q)`. -/
def execute_trade_sell (st : OrderBook) (sid : Nat) (best : QEntry) (q : Nat) :
    OrderBook :=
  { st with
    trades := st.trades ++ [⟨best.id, sid, best.price, q⟩],
    heap := decRem (decRem st.heap sid q) best.id q,
    order_map := if remOf st.heap best.id - q = 0
                 then eraseId st.order_map best.id else st.order_map }

/-- Mirrors `OrderBook::match_buy_order` (the while loop), with `brem` the
incoming order's `remaining_quantity` and explicit fuel (see header; callers
pass the incoming quantity as fuel).  The `remOf … = 0` early return mirrors
the `continue` statement, which is unreachable because `clean_empty_orders`
has just removed every exhausted order from the top of the queue. -/
def match_buy_order (bid : Nat) (bprice : ℚ) :
    Nat → OrderBook → Nat → OrderBook × Nat
  | 0, st, brem => (st, brem)
  | fuel + 1, st, brem =>
    if brem = 0 then (st, brem)
    else if st.sell_orders.isEmpty then (st, brem)
    else
      let stc := clean_empty_orders st
      match stc.sell_orders with
      | [] => (stc, brem)
      | best :: _ =>
        if remOf stc.heap best.id = 0 then (stc, brem)
        else if bprice < best.price then (stc, brem)
        else
          let q := min brem (remOf stc.heap best.id)
          match_buy_order bid bprice fuel (execute_trade_buy stc bid best q) (brem - q)

/-- Mirrors `OrderBook::match_sell_order`. -/
def match_sell_order (sid : Nat) (sprice : ℚ) :
    Nat → OrderBook → Nat → OrderBook × Nat
  | 0, st, srem => (st, srem)
  | fuel + 1, st, srem =>
    if srem = 0 then (st, srem)
    else if st.buy_orders.isEmpty then (st, srem)
    else
      let stc := clean_empty_orders st
      match stc.buy_orders with
      | [] => (stc, srem)
      | best :: _ =>
        if remOf stc.heap best.id = 0 then (stc, srem)
        else if sprice > best.price then (stc, srem)
        else
          let q := min srem (remOf stc.heap best.id)
          match_sell_order sid sprice fuel (execute_trade_sell stc sid best q) (srem - q)

/-- The market-buy `while` loop inside `OrderBook::add_market_order`:
no crossing test, and the trades generated for this order are collected
(`order_trades`). -/
def market_buy_sweep (mid : Nat) :
    Nat → OrderBook → Nat → OrderBook × List Trade
  | 0, st, _ => (st, [])
  | fuel + 1, st, brem =>
    if brem = 0 then (st, [])
    else if st.sell_orders.isEmpty then (st, [])
    else
      let stc := clean_empty_orders st
      match stc.sell_orders with
      | [] => (stc, [])
      | best :: _ =>
        if remOf stc.heap best.id = 0 then (stc, [])
        else
          let q := min brem (remOf stc.heap best.id)
          let res := market_buy_sweep mid fuel (execute_trade_buy stc mid best q) (brem - q)
          (res.1, Trade.mk mid best.id best.price q :: res.2)

/-- The market-sell `while` loop inside `OrderBook::add_market_order`. -/
def market_sell_sweep (mid : Nat) :
    Nat → OrderBook → Nat → OrderBook × List Trade
  | 0, st, _ => (st, [])
  | fuel + 1, st, srem =>
    if srem = 0 then (st, [])
    else if st.buy_orders.isEmpty then (st, [])
    else
      let stc := clean_empty_orders st
      match stc.buy_orders with
      | [] => (stc, [])
      | best :: _ =>
        if remOf stc.heap best.id = 0 then (stc, [])
        else
          let q := min srem (remOf stc.heap best.id)
          let res := market_sell_sweep mid fuel (execute_trade_sell stc mid best q) (srem - q)
          (res.1, Trade.mk best.id mid best.price q :: res.2)

/-- Mirrors `OrderBook::add_limit_order`: allocate, register in `order_map`,
match against the opposite queue, re-rest any remainder, return the id. -/
def add_limit_order (st : OrderBook) (side : OrderSide) (price : ℚ)
    (quantity : Nat) : OrderBook × Nat :=
  let oid := st.next_order_id
  let ord : Order :=
    { id := oid, side := side, type := OrderType.LIMIT, price := price,
      quantity := quantity, remaining_quantity := quantity, timestamp := st.next_ts }
  let st1 : OrderBook :=
    { st with heap := st.heap ++ [ord], order_map := st.order_map ++ [oid],
              next_order_id := oid + 1, next_ts := st.next_ts + 1 }
  match side with
  | OrderSide.BUY =>
    let res := match_buy_order oid price quantity st1 quantity
    (if 0 < res.2
     then { res.1 with buy_orders := qInsertBuy ⟨oid, price, ord.timestamp⟩ res.1.buy_orders }
     else res.1, oid)
  | OrderSide.SELL =>
    let res := match_sell_order oid price quantity st1 quantity
    (if 0 < res.2
     then { res.1 with sell_orders := qInsertSell ⟨oid, price, ord.timestamp⟩ res.1.sell_orders }
     else res.1, oid)

/-- Mirrors `OrderBook::add_market_order`: allocate (consuming an id), never
register in `order_map`, sweep the opposite queue, return this order's
trades. -/
def add_market_order (st : OrderBook) (side : OrderSide) (quantity : Nat) :
    OrderBook × List Trade :=
  let mid := st.next_order_id
  let ord : Order :=
    { id := mid, side := side, type := OrderType.MARKET, price := 0,
      quantity := quantity, remaining_quantity := quantity, timestamp := st.next_ts }
  let st1 : OrderBook :=
    { st with heap := st.heap ++ [ord], next_order_id := mid + 1,
              next_ts := st.next_ts + 1 }
  match side with
  | OrderSide.BUY => market_buy_sweep mid quantity st1 quantity
  | OrderSide.SELL => market_sell_sweep mid quantity st1 quantity

/-- Mirrors `OrderBook::cancel_order`. -/
def cancel_order (st : OrderBook) (order_id : Nat) : OrderBook × Bool :=
  if order_id ∈ st.order_map then
    ({ st with heap := setRemZero st.heap order_id,
               order_map := eraseId st.order_map order_id }, true)
  else (st, false)

/-- The scan both best-price getters run on a copy of their queue: price of
the first entry with positive remaining quantity, `0.0` if none. -/
def bestActivePrice (heap : List Order) : List QEntry → ℚ
  | [] => 0
  | e :: rest => if 0 < remOf heap e.id then e.price else bestActivePrice heap rest

/-- Mirrors `OrderBook::get_best_bid`. -/
def get_best_bid (st : OrderBook) : ℚ := bestActivePrice st.heap st.buy_orders

/-- Mirrors `OrderBook::get_best_ask`. -/
def get_best_ask (st : OrderBook) : ℚ := bestActivePrice st.heap st.sell_orders

/-- The public mutating operations of the engine. -/
inductive Op where
  | limit (side : OrderSide) (price : ℚ) (quantity : Nat)
  | market (side : OrderSide) (quantity : Nat)
  | cancel (order_id : Nat)

/-- State transition of one public operation (return values dropped). -/
def applyOp (st : OrderBook) : Op → OrderBook
  | Op.limit s p q => (add_limit_order st s p q).1
  | Op.market s q => (add_market_order st s q).1
  | Op.cancel i => (cancel_order st i).1

/-- The engine state after a sequence of public operations on a fresh book. -/
def applyOps (ops : List Op) : OrderBook := ops.foldl applyOp emptyBook

/-- Total quantity traded by order `i` across a trade list (an order never
appears on both sides of one trade, see `WF.maker`). -/
def tradedQty (i : Nat) (ts : List Trade) : Nat :=
  (ts.map fun t =>
    (if t.buyer_id = i then t.quantity else 0) +
    (if t.seller_id = i then t.quantity else 0)).sum

/-- Total quantity of a trade list. -/
def sumQty (ts : List Trade) : Nat := (ts.map Trade.quantity).sum

/-- The bid side has an order with positive remaining quantity. -/
def hasActiveBuy (st : OrderBook) : Prop :=
  ∃ e ∈ st.buy_orders, 0 < remOf st.heap e.id

/-- The ask side has an order with positive remaining quantity. -/
def hasActiveSell (st : OrderBook) : Prop :=
  ∃ e ∈ st.sell_orders, 0 < remOf st.heap e.id

instance (st : OrderBook) : Decidable (hasActiveBuy st) := by
  unfold hasActiveBuy; infer_instance

instance (st : OrderBook) : Decidable (hasActiveSell st) := by
  unfold hasActiveSell; infer_instance

/-- The ids handed back by the `add_limit_order` calls of an operation
sequence, in call order. -/
def limitIds : OrderBook → List Op → List Nat
  | _, [] => []
  | st, Op.limit s p q :: rest =>
    let r := add_limit_order st s p q
    r.2 :: limitIds r.1 rest
  | st, op :: rest => limitIds (applyOp st op) rest

/-- The scenario prices as explicitly reduced rationals: `Rat.ofScientific`
(behind decimal literals) does not reduce in the kernel, so the executable
scenario uses `Rat.mk'` normal forms; `scenario1_behavior` proves each equal
to its decimal literal. -/
def p10050 : ℚ := Rat.mk' 201 2 (by decide) (by decide)

/-- 100.25 as a reduced rational. -/
def p10025 : ℚ := Rat.mk' 401 4 (by decide) (by decide)

/-- 100.75 as a reduced rational. -/
def p10075 : ℚ := Rat.mk' 403 4 (by decide) (by decide)

/-- 101.00 as a rational. -/
def p10100 : ℚ := (101 : ℚ)

/-- 101.25 as a reduced rational. -/
def p10125 : ℚ := Rat.mk' 405 4 (by decide) (by decide)

/-- 100.90 as a reduced rational. -/
def p10090 : ℚ := Rat.mk' 1009 10 (by decide) (by decide)

/-- 101.10 as a reduced rational. -/
def p10110 : ℚ := Rat.mk' 1011 10 (by decide) (by decide)

/-- The README / spec scenario: six resting orders, then an aggressive buy. -/
def scenario1 : List Op :=
  [Op.limit OrderSide.BUY p10050 100,
   Op.limit OrderSide.BUY p10025 200,
   Op.limit OrderSide.BUY p10075 50,
   Op.limit OrderSide.SELL p10100 150,
   Op.limit OrderSide.SELL p10125 100,
   Op.limit OrderSide.SELL p10090 75,
   Op.limit OrderSide.BUY p10110 200]

end Orderbook

namespace Orderbook

/-! ### Basic lemmas about the heap operations -/

/-- Field-level agreement of two order objects on everything immutable. -/
def shapeEq (a b : Order) : Prop :=
  a.id = b.id ∧ a.price = b.price ∧ a.timestamp = b.timestamp ∧
  a.type = b.type ∧ a.side = b.side ∧ a.quantity = b.quantity

theorem shapeEq_refl (a : Order) : shapeEq a a :=
  ⟨rfl, rfl, rfl, rfl, rfl, rfl⟩

theorem shapeEq_trans {a b c : Order} (h1 : shapeEq a b) (h2 : shapeEq b c) :
    shapeEq a c := by
  obtain ⟨i1, p1, t1, y1, s1, q1⟩ := h1
  obtain ⟨i2, p2, t2, y2, s2, q2⟩ := h2
  exact ⟨i1.trans i2, p1.trans p2, t1.trans t2, y1.trans y2, s1.trans s2, q1.trans q2⟩

theorem remOf_decRem (h : List Order) (i q j : Nat) :
    remOf (decRem h i q) j = if j = i then remOf h j - q else remOf h j := by
  induction h with
  | nil => simp [decRem, remOf]
  | cons o rest ih =>
    by_cases h1 : o.id = i <;> by_cases h2 : o.id = j
    · have h3 : j = i := h2 ▸ h1
      simp [decRem, remOf, h1, h2, h3] at ih ⊢
    · have h3 : j ≠ i := fun he => h2 (he ▸ h1)
      have h4 : ¬ i = j := fun he => h3 he.symm
      simp only [decRem, List.map_cons, remOf] at ih ⊢
      simp [h1, h2, h3, h4] at ih ⊢
      exact ih
    · have h3 : j ≠ i := fun he => h1 (h2.trans he)
      simp only [decRem, List.map_cons, remOf] at ih ⊢
      simp [h1, h2, h3] at ih ⊢
    · simp only [decRem, List.map_cons, remOf] at ih ⊢
      simp [h1, h2] at ih ⊢
      exact ih

theorem remOf_decRem_le (h : List Order) (i q j : Nat) :
    remOf (decRem h i q) j ≤ remOf h j := by
  rw [remOf_decRem]; split <;> omega

theorem remOf_setRemZero (h : List Order) (i j : Nat) :
    remOf (setRemZero h i) j = if j = i then 0 else remOf h j := by
  induction h with
  | nil => simp [setRemZero, remOf]
  | cons o rest ih =>
    by_cases h1 : o.id = i <;> by_cases h2 : o.id = j
    · have h3 : j = i := h2 ▸ h1
      simp [setRemZero, remOf, h1, h2, h3] at ih ⊢
    · have h3 : j ≠ i := fun he => h2 (he ▸ h1)
      have h4 : ¬ i = j := fun he => h3 he.symm
      simp only [setRemZero, List.map_cons, remOf] at ih ⊢
      simp [h1, h2, h3, h4] at ih ⊢
      exact ih
    · have h3 : j ≠ i := fun he => h1 (h2.trans he)
      simp only [setRemZero, List.map_cons, remOf] at ih ⊢
      simp [h1, h2, h3] at ih ⊢
    · simp only [setRemZero, List.map_cons, remOf] at ih ⊢
      simp [h1, h2] at ih ⊢
      exact ih

theorem remOf_setRemZero_le (h : List Order) (i j : Nat) :
    remOf (setRemZero h i) j ≤ remOf h j := by
  rw [remOf_setRemZero]; split <;> omega

theorem remOf_append_of_forall_ne (h1 h2 : List Order) (j : Nat)
    (hj : ∀ x ∈ h2, x.id ≠ j) :
    remOf (h1 ++ h2) j = remOf h1 j := by
  induction h1 with
  | nil =>
    simp only [List.nil_append, remOf]
    induction h2 with
    | nil => rfl
    | cons o rest ih =>
      have := hj o (by simp)
      simp only [remOf, if_neg this]
      exact ih fun x hx => hj x (by simp [hx])
  | cons o rest ih =>
    simp only [List.cons_append, remOf]
    split
    · rfl
    · exact ih

theorem remOf_append_self (h : List Order) (o : Order) (j : Nat)
    (hj : ∀ x ∈ h, x.id ≠ j) (ho : o.id = j) :
    remOf (h ++ [o]) j = o.remaining_quantity := by
  induction h with
  | nil => simp [remOf, ho]
  | cons x rest ih =>
    have hx := hj x (by simp)
    simp only [List.cons_append, remOf, if_neg hx]
    exact ih fun y hy => hj y (by simp [hy])

theorem decRem_map_id (h : List Order) (i q : Nat) :
    (decRem h i q).map Order.id = h.map Order.id := by
  simp only [decRem, List.map_map]
  refine List.map_congr_left fun o _ => ?_
  simp only [Function.comp_apply]; split <;> rfl

theorem setRemZero_map_id (h : List Order) (i : Nat) :
    (setRemZero h i).map Order.id = h.map Order.id := by
  simp only [setRemZero, List.map_map]
  refine List.map_congr_left fun o _ => ?_
  simp only [Function.comp_apply]; split <;> rfl

theorem mem_decRem (h : List Order) (i q : Nat) {o : Order} (ho : o ∈ h) :
    (if o.id = i then { o with remaining_quantity := o.remaining_quantity - q }
     else o) ∈ decRem h i q :=
  List.mem_map_of_mem _ ho

theorem mem_decRem_shape (h : List Order) (i q : Nat) {o : Order} (ho : o ∈ h) :
    ∃ o' ∈ decRem h i q, shapeEq o' o ∧
      o'.remaining_quantity ≤ o.remaining_quantity := by
  refine ⟨_, mem_decRem h i q ho, ?_⟩
  split <;>
    exact ⟨⟨rfl, rfl, rfl, rfl, rfl, rfl⟩,
      by first | exact Nat.sub_le _ _ | exact Nat.le_refl _⟩

theorem decRem_shape (h : List Order) (i q : Nat) {o' : Order}
    (ho : o' ∈ decRem h i q) :
    ∃ o ∈ h, shapeEq o' o ∧ o'.remaining_quantity ≤ o.remaining_quantity := by
  obtain ⟨o, hm, rfl⟩ := List.mem_map.mp ho
  refine ⟨o, hm, ?_⟩
  split <;>
    exact ⟨⟨rfl, rfl, rfl, rfl, rfl, rfl⟩,
      by first | exact Nat.sub_le _ _ | exact Nat.le_refl _⟩

theorem mem_setRemZero_shape (h : List Order) (i : Nat) {o : Order} (ho : o ∈ h) :
    ∃ o' ∈ setRemZero h i, shapeEq o' o ∧
      o'.remaining_quantity ≤ o.remaining_quantity := by
  refine ⟨_, List.mem_map_of_mem _ ho, ?_⟩
  split <;>
    exact ⟨⟨rfl, rfl, rfl, rfl, rfl, rfl⟩,
      by first | exact Nat.zero_le _ | exact Nat.le_refl _⟩

theorem setRemZero_shape (h : List Order) (i : Nat) {o' : Order}
    (ho : o' ∈ setRemZero h i) :
    ∃ o ∈ h, shapeEq o' o ∧ o'.remaining_quantity ≤ o.remaining_quantity := by
  obtain ⟨o, hm, rfl⟩ := List.mem_map.mp ho
  refine ⟨o, hm, ?_⟩
  split <;>
    exact ⟨⟨rfl, rfl, rfl, rfl, rfl, rfl⟩,
      by first | exact Nat.zero_le _ | exact Nat.le_refl _⟩

theorem remOf_eq_of_mem_nodup {h : List Order} {o : Order} (ho : o ∈ h)
    (hn : (h.map Order.id).Nodup) : remOf h o.id = o.remaining_quantity := by
  induction h with
  | nil => cases ho
  | cons x rest ih =>
    simp only [List.map_cons, List.nodup_cons] at hn
    rcases List.mem_cons.mp ho with rfl | hmem
    · simp [remOf]
    · have hne : x.id ≠ o.id := fun he =>
        hn.1 (he ▸ List.mem_map_of_mem Order.id hmem)
      simp only [remOf, if_neg hne]
      exact ih hmem hn.2

theorem remOf_pos_mem {h : List Order} {j : Nat} (hp : 0 < remOf h j) :
    ∃ o ∈ h, o.id = j ∧ o.remaining_quantity = remOf h j := by
  induction h with
  | nil => simp [remOf] at hp
  | cons x rest ih =>
    by_cases hx : x.id = j
    · exact ⟨x, by simp, hx, by simp [remOf, hx]⟩
    · simp only [remOf, if_neg hx] at hp ⊢
      obtain ⟨o, hm, h1, h2⟩ := ih hp
      exact ⟨o, by simp [hm], h1, h2⟩

theorem cleanQueue_suffix (h : List Order) (q : List QEntry) :
    cleanQueue h q <:+ q := by
  induction q with
  | nil => exact List.suffix_refl _
  | cons e rest ih =>
    simp only [cleanQueue]
    split
    · exact ih.trans (List.suffix_cons e rest)
    · exact List.suffix_refl _

theorem cleanQueue_head_pos {h : List Order} {q : List QEntry} {e : QEntry}
    {rest : List QEntry} (hq : cleanQueue h q = e :: rest) :
    0 < remOf h e.id := by
  induction q with
  | nil => simp [cleanQueue] at hq
  | cons x xs ih =>
    simp only [cleanQueue] at hq
    split at hq
    · exact ih hq
    · cases hq; omega

theorem mem_eraseId {l : List Nat} {i j : Nat} :
    j ∈ eraseId l i ↔ j ∈ l ∧ j ≠ i := by
  induction l with
  | nil => simp [eraseId]
  | cons x rest ih =>
    simp only [eraseId]
    split
    · subst x
      simp only [List.mem_cons, ih]
      constructor
      · rintro ⟨hj, hne⟩; exact ⟨Or.inr hj, hne⟩
      · rintro ⟨hj | hj, hne⟩
        · exact absurd hj hne
        · exact ⟨hj, hne⟩
    · rename_i hx
      simp only [List.mem_cons, ih]
      constructor
      · rintro (rfl | ⟨hj, hne⟩)
        · exact ⟨Or.inl rfl, hx⟩
        · exact ⟨Or.inr hj, hne⟩
      · rintro ⟨rfl | hj, hne⟩
        · exact Or.inl rfl
        · exact Or.inr ⟨hj, hne⟩

theorem eraseId_subset {l : List Nat} {i j : Nat} (hj : j ∈ eraseId l i) :
    j ∈ l := (mem_eraseId.mp hj).1

/-! ### Lemmas about `tradedQty` -/

theorem tradedQty_nil (i : Nat) : tradedQty i [] = 0 := rfl

theorem tradedQty_append (i : Nat) (ts ts' : List Trade) :
    tradedQty i (ts ++ ts') = tradedQty i ts + tradedQty i ts' := by
  simp [tradedQty]

theorem tradedQty_singleton (i : Nat) (t : Trade) :
    tradedQty i [t] =
      (if t.buyer_id = i then t.quantity else 0) +
      (if t.seller_id = i then t.quantity else 0) := by
  simp [tradedQty]

theorem tradedQty_eq_zero {i : Nat} {ts : List Trade}
    (h : ∀ t ∈ ts, t.buyer_id ≠ i ∧ t.seller_id ≠ i) : tradedQty i ts = 0 := by
  induction ts with
  | nil => rfl
  | cons t rest ih =>
    have ht := h t (by simp)
    have : tradedQty i (t :: rest) = tradedQty i [t] + tradedQty i rest := by
      simpa using tradedQty_append i [t] rest
    rw [this, tradedQty_singleton, if_neg ht.1, if_neg ht.2]
    simpa using ih fun t' ht' => h t' (by simp [ht'])

theorem sumQty_cons (t : Trade) (ts : List Trade) :
    sumQty (t :: ts) = t.quantity + sumQty ts := by
  simp [sumQty]

end Orderbook

namespace Orderbook

/-! ### The comparator-induced ranking -/

theorem buyOutranks_iff (a b : QEntry) :
    buyOutranks a b ↔ a.price > b.price ∨ (a.price = b.price ∧ a.ts < b.ts) := by
  unfold buyOutranks BuyOrderComparator
  by_cases hp : b.price = a.price
  · simp [hp, lt_irrefl]
  · have hp' : ¬ a.price = b.price := fun he => hp he.symm
    simp [hp, hp']

theorem sellOutranks_iff (a b : QEntry) :
    sellOutranks a b ↔ a.price < b.price ∨ (a.price = b.price ∧ a.ts < b.ts) := by
  unfold sellOutranks SellOrderComparator
  by_cases hp : b.price = a.price
  · simp [hp, lt_irrefl]
  · have hp' : ¬ a.price = b.price := fun he => hp he.symm
    simp [hp, hp']

theorem buyOutranks_trans {a b c : QEntry} (h1 : buyOutranks a b)
    (h2 : buyOutranks b c) : buyOutranks a c := by
  rw [buyOutranks_iff] at *
  rcases h1 with h1 | ⟨h1, h1t⟩ <;> rcases h2 with h2 | ⟨h2, h2t⟩
  · exact Or.inl (h2.trans h1)
  · exact Or.inl (h2 ▸ h1)
  · exact Or.inl (h1 ▸ h2)
  · exact Or.inr ⟨h1.trans h2, h1t.trans h2t⟩

theorem sellOutranks_trans {a b c : QEntry} (h1 : sellOutranks a b)
    (h2 : sellOutranks b c) : sellOutranks a c := by
  rw [sellOutranks_iff] at *
  rcases h1 with h1 | ⟨h1, h1t⟩ <;> rcases h2 with h2 | ⟨h2, h2t⟩
  · exact Or.inl (h1.trans h2)
  · exact Or.inl (h2 ▸ h1)
  · exact Or.inl (h1 ▸ h2)
  · exact Or.inr ⟨h1.trans h2, h1t.trans h2t⟩

theorem buyOutranks_total {a b : QEntry} (hts : a.ts ≠ b.ts) :
    buyOutranks a b ∨ buyOutranks b a := by
  rw [buyOutranks_iff, buyOutranks_iff]
  rcases lt_trichotomy a.price b.price with hp | hp | hp
  · exact Or.inr (Or.inl hp)
  · rcases Nat.lt_or_ge a.ts b.ts with ht | ht
    · exact Or.inl (Or.inr ⟨hp, ht⟩)
    · exact Or.inr (Or.inr ⟨hp.symm, by omega⟩)
  · exact Or.inl (Or.inl hp)

theorem sellOutranks_total {a b : QEntry} (hts : a.ts ≠ b.ts) :
    sellOutranks a b ∨ sellOutranks b a := by
  rw [sellOutranks_iff, sellOutranks_iff]
  rcases lt_trichotomy a.price b.price with hp | hp | hp
  · exact Or.inl (Or.inl hp)
  · rcases Nat.lt_or_ge a.ts b.ts with ht | ht
    · exact Or.inl (Or.inr ⟨hp, ht⟩)
    · exact Or.inr (Or.inr ⟨hp.symm, by omega⟩)
  · exact Or.inr (Or.inl hp)

theorem sellOutranks_price_le {a b : QEntry} (h : sellOutranks a b) :
    a.price ≤ b.price := by
  rw [sellOutranks_iff] at h
  rcases h with h | ⟨h, _⟩
  · exact le_of_lt h
  · exact le_of_eq h

theorem buyOutranks_price_ge {a b : QEntry} (h : buyOutranks a b) :
    b.price ≤ a.price := by
  rw [buyOutranks_iff] at h
  rcases h with h | ⟨h, _⟩
  · exact le_of_lt h
  · exact le_of_eq h.symm

/-! ### Queue insertion -/

theorem mem_qInsertBuy {e x : QEntry} {q : List QEntry} :
    x ∈ qInsertBuy e q ↔ x = e ∨ x ∈ q := by
  induction q with
  | nil => simp [qInsertBuy]
  | cons h t ih =>
    simp only [qInsertBuy]
    split
    · simp [or_comm, or_left_comm, or_assoc]
    · simp [ih]
      tauto

theorem mem_qInsertSell {e x : QEntry} {q : List QEntry} :
    x ∈ qInsertSell e q ↔ x = e ∨ x ∈ q := by
  induction q with
  | nil => simp [qInsertSell]
  | cons h t ih =>
    simp only [qInsertSell]
    split
    · simp [or_comm, or_left_comm, or_assoc]
    · simp [ih]
      tauto

theorem qInsertBuy_pairwise {e : QEntry} {q : List QEntry}
    (hs : q.Pairwise buyOutranks) (hts : ∀ x ∈ q, x.ts ≠ e.ts) :
    (qInsertBuy e q).Pairwise buyOutranks := by
  induction q with
  | nil => simp [qInsertBuy]
  | cons h t ih =>
    rw [List.pairwise_cons] at hs
    simp only [qInsertBuy]
    split
    · rename_i hcmp
      have heh : buyOutranks e h := hcmp
      refine List.Pairwise.cons ?_ (List.Pairwise.cons hs.1 hs.2)
      intro x hx
      rcases List.mem_cons.mp hx with rfl | hxt
      · exact heh
      · exact buyOutranks_trans heh (hs.1 x hxt)
    · rename_i hcmp
      have hhe : buyOutranks h e := by
        have hne : h.ts ≠ e.ts := hts h (by simp)
        rcases buyOutranks_total hne with hc | hc
        · exact hc
        · exact absurd hc hcmp
      refine List.Pairwise.cons ?_ (ih hs.2 fun x hx => hts x (by simp [hx]))
      intro x hx
      rcases mem_qInsertBuy.mp hx with rfl | hxt
      · exact hhe
      · exact hs.1 x hxt

theorem qInsertSell_pairwise {e : QEntry} {q : List QEntry}
    (hs : q.Pairwise sellOutranks) (hts : ∀ x ∈ q, x.ts ≠ e.ts) :
    (qInsertSell e q).Pairwise sellOutranks := by
  induction q with
  | nil => simp [qInsertSell]
  | cons h t ih =>
    rw [List.pairwise_cons] at hs
    simp only [qInsertSell]
    split
    · rename_i hcmp
      have heh : sellOutranks e h := hcmp
      refine List.Pairwise.cons ?_ (List.Pairwise.cons hs.1 hs.2)
      intro x hx
      rcases List.mem_cons.mp hx with rfl | hxt
      · exact heh
      · exact sellOutranks_trans heh (hs.1 x hxt)
    · rename_i hcmp
      have hhe : sellOutranks h e := by
        have hne : h.ts ≠ e.ts := hts h (by simp)
        rcases sellOutranks_total hne with hc | hc
        · exact hc
        · exact absurd hc hcmp
      refine List.Pairwise.cons ?_ (ih hs.2 fun x hx => hts x (by simp [hx]))
      intro x hx
      rcases mem_qInsertSell.mp hx with rfl | hxt
      · exact hhe
      · exact hs.1 x hxt

/-! ### The best-price scan -/

theorem bestActivePrice_no_active {h : List Order} {q : List QEntry}
    (ha : ∀ e ∈ q, remOf h e.id = 0) : bestActivePrice h q = 0 := by
  induction q with
  | nil => rfl
  | cons e rest ih =>
    have he := ha e (by simp)
    simp only [bestActivePrice, he]
    simp
    exact ih fun x hx => ha x (by simp [hx])

theorem bestActivePrice_spec {R : QEntry → QEntry → Prop} {h : List Order}
    {q : List QEntry} (hs : q.Pairwise R)
    (ha : ∃ e ∈ q, 0 < remOf h e.id) :
    ∃ e ∈ q, 0 < remOf h e.id ∧ bestActivePrice h q = e.price ∧
      ∀ f ∈ q, 0 < remOf h f.id → f = e ∨ R e f := by
  induction q with
  | nil => simp at ha
  | cons x rest ih =>
    rw [List.pairwise_cons] at hs
    by_cases hx : 0 < remOf h x.id
    · refine ⟨x, by simp, hx, by simp [bestActivePrice, hx], ?_⟩
      intro f hf _
      rcases List.mem_cons.mp hf with rfl | hft
      · exact Or.inl rfl
      · exact Or.inr (hs.1 f hft)
    · have hx0 : remOf h x.id = 0 := by omega
      have ha' : ∃ e ∈ rest, 0 < remOf h e.id := by
        obtain ⟨e, he, hpos⟩ := ha
        rcases List.mem_cons.mp he with rfl | het
        · exact absurd hpos hx
        · exact ⟨e, het, hpos⟩
      obtain ⟨e, he, hpos, hbest, hall⟩ := ih hs.2 ha'
      refine ⟨e, by simp [he], hpos, ?_, ?_⟩
      · simp [bestActivePrice, hx0, hbest]
      · intro f hf hfpos
        rcases List.mem_cons.mp hf with rfl | hft
        · omega
        · exact hall f hft hfpos

end Orderbook

namespace Orderbook

/-! ### The reachable-state invariant -/

/-- Well-formedness of a book state.  `WF` holds for the empty book and is
preserved by every public operation; all claims about reachable states are
derived from it. -/
structure WF (st : OrderBook) : Prop where
  buy_sorted : st.buy_orders.Pairwise buyOutranks
  sell_sorted : st.sell_orders.Pairwise sellOutranks
  buy_link : ∀ e ∈ st.buy_orders, ∃ o ∈ st.heap, o.id = e.id ∧
    o.price = e.price ∧ o.timestamp = e.ts ∧ o.type = OrderType.LIMIT ∧
    o.side = OrderSide.BUY
  sell_link : ∀ e ∈ st.sell_orders, ∃ o ∈ st.heap, o.id = e.id ∧
    o.price = e.price ∧ o.timestamp = e.ts ∧ o.type = OrderType.LIMIT ∧
    o.side = OrderSide.SELL
  buy_ids_lt : ∀ e ∈ st.buy_orders, e.id < st.next_order_id
  sell_ids_lt : ∀ e ∈ st.sell_orders, e.id < st.next_order_id
  buy_ts_lt : ∀ e ∈ st.buy_orders, e.ts < st.next_ts
  sell_ts_lt : ∀ e ∈ st.sell_orders, e.ts < st.next_ts
  not_crossed : ∀ e ∈ st.buy_orders, ∀ f ∈ st.sell_orders,
    0 < remOf st.heap e.id → 0 < remOf st.heap f.id → e.price < f.price
  heap_ids_lt : ∀ o ∈ st.heap, o.id < st.next_order_id
  heap_ts_lt : ∀ o ∈ st.heap, o.timestamp < st.next_ts
  heap_nodup : (st.heap.map Order.id).Nodup
  traded : ∀ o ∈ st.heap,
    tradedQty o.id st.trades + o.remaining_quantity ≤ o.quantity
  trade_ids_lt : ∀ t ∈ st.trades,
    t.buyer_id < st.next_order_id ∧ t.seller_id < st.next_order_id
  maker : ∀ t ∈ st.trades, t.buyer_id ≠ t.seller_id ∧
    ∃ o ∈ st.heap, o.type = OrderType.LIMIT ∧ t.price = o.price ∧
      o.id = min t.buyer_id t.seller_id
  map_ids_lt : ∀ i ∈ st.order_map, i < st.next_order_id
  next_pos : 1 ≤ st.next_order_id

theorem WF_emptyBook : WF emptyBook := by
  constructor <;> simp [emptyBook]

theorem WF_clean {st : OrderBook} (hWF : WF st) :
    WF (clean_empty_orders st) := by
  have hbs := (cleanQueue_suffix st.heap st.buy_orders).subset
  have hss := (cleanQueue_suffix st.heap st.sell_orders).subset
  exact {
    buy_sorted := hWF.buy_sorted.sublist
      (cleanQueue_suffix st.heap st.buy_orders).sublist
    sell_sorted := hWF.sell_sorted.sublist
      (cleanQueue_suffix st.heap st.sell_orders).sublist
    buy_link := fun e he => hWF.buy_link e (hbs he)
    sell_link := fun e he => hWF.sell_link e (hss he)
    buy_ids_lt := fun e he => hWF.buy_ids_lt e (hbs he)
    sell_ids_lt := fun e he => hWF.sell_ids_lt e (hss he)
    buy_ts_lt := fun e he => hWF.buy_ts_lt e (hbs he)
    sell_ts_lt := fun e he => hWF.sell_ts_lt e (hss he)
    not_crossed := fun e he f hf h1 h2 =>
      hWF.not_crossed e (hbs he) f (hss hf) h1 h2
    heap_ids_lt := hWF.heap_ids_lt
    heap_ts_lt := hWF.heap_ts_lt
    heap_nodup := hWF.heap_nodup
    traded := hWF.traded
    trade_ids_lt := hWF.trade_ids_lt
    maker := hWF.maker
    map_ids_lt := hWF.map_ids_lt
    next_pos := hWF.next_pos }

/-! ### The trade-execution step -/

theorem execute_trade_buy_spec {st : OrderBook} {bid : Nat} {best : QEntry}
    {brem q : Nat}
    (hWF : WF st)
    (hbest : best ∈ st.sell_orders)
    (hbrem : remOf st.heap bid = brem)
    (hbid : bid < st.next_order_id)
    (hsell_lt : ∀ e ∈ st.sell_orders, e.id < bid)
    (hq : q = min brem (remOf st.heap best.id)) :
    WF (execute_trade_buy st bid best q) ∧
    remOf (execute_trade_buy st bid best q).heap bid = brem - q ∧
    (∀ j, remOf (execute_trade_buy st bid best q).heap j ≤ remOf st.heap j) ∧
    (∀ o ∈ st.heap, ∃ o2 ∈ (execute_trade_buy st bid best q).heap, shapeEq o2 o) := by
  have hlt : best.id < bid := hsell_lt best hbest
  have hne : best.id ≠ bid := Nat.ne_of_lt hlt
  have hne' : ¬ bid = best.id := fun he => hne he.symm
  have hrem2 : ∀ j, remOf (execute_trade_buy st bid best q).heap j =
      if j = best.id then
        (if j = bid then remOf st.heap j - q else remOf st.heap j) - q
      else (if j = bid then remOf st.heap j - q else remOf st.heap j) := by
    intro j
    show remOf (decRem (decRem st.heap bid q) best.id q) j = _
    rw [remOf_decRem, remOf_decRem]
  have hfwd : ∀ o ∈ st.heap,
      ∃ o2 ∈ (execute_trade_buy st bid best q).heap, shapeEq o2 o := by
    intro o ho
    obtain ⟨o1, ho1, hs1, _⟩ := mem_decRem_shape st.heap bid q ho
    obtain ⟨o2, ho2, hs2, _⟩ := mem_decRem_shape (decRem st.heap bid q) best.id q ho1
    exact ⟨o2, ho2, shapeEq_trans hs2 hs1⟩
  have hbwd : ∀ o2 ∈ (execute_trade_buy st bid best q).heap,
      ∃ o ∈ st.heap, shapeEq o2 o := by
    intro o2 ho2
    obtain ⟨o1, ho1, hs1, _⟩ := decRem_shape (decRem st.heap bid q) best.id q ho2
    obtain ⟨o, ho, hs2, _⟩ := decRem_shape st.heap bid q ho1
    exact ⟨o, ho, shapeEq_trans hs1 hs2⟩
  refine ⟨?_, ?_, ?_, hfwd⟩
  · refine {
      buy_sorted := hWF.buy_sorted
      sell_sorted := hWF.sell_sorted
      buy_link := ?_
      sell_link := ?_
      buy_ids_lt := hWF.buy_ids_lt
      sell_ids_lt := hWF.sell_ids_lt
      buy_ts_lt := hWF.buy_ts_lt
      sell_ts_lt := hWF.sell_ts_lt
      not_crossed := ?_
      heap_ids_lt := ?_
      heap_ts_lt := ?_
      heap_nodup := ?_
      traded := ?_
      trade_ids_lt := ?_
      maker := ?_
      map_ids_lt := ?_
      next_pos := hWF.next_pos }
    · intro e he
      obtain ⟨o, ho, hid, hp, ht, hty, hsd⟩ := hWF.buy_link e he
      obtain ⟨o2, ho2, hs⟩ := hfwd o ho
      obtain ⟨si, sp, sts, sty, ssd, _⟩ := hs
      exact ⟨o2, ho2, si.trans hid, sp.trans hp, sts.trans ht, sty.trans hty,
        ssd.trans hsd⟩
    · intro e he
      obtain ⟨o, ho, hid, hp, ht, hty, hsd⟩ := hWF.sell_link e he
      obtain ⟨o2, ho2, hs⟩ := hfwd o ho
      obtain ⟨si, sp, sts, sty, ssd, _⟩ := hs
      exact ⟨o2, ho2, si.trans hid, sp.trans hp, sts.trans ht, sty.trans hty,
        ssd.trans hsd⟩
    · intro e he f hf h1 h2
      refine hWF.not_crossed e he f hf ?_ ?_
      · calc 0 < _ := h1
          _ ≤ remOf st.heap e.id := by rw [hrem2]; split_ifs <;> omega
      · calc 0 < _ := h2
          _ ≤ remOf st.heap f.id := by rw [hrem2]; split_ifs <;> omega
    · intro o2 ho2
      obtain ⟨o, ho, hs⟩ := hbwd o2 ho2
      exact hs.1 ▸ hWF.heap_ids_lt o ho
    · intro o2 ho2
      obtain ⟨o, ho, hs⟩ := hbwd o2 ho2
      exact hs.2.2.1 ▸ hWF.heap_ts_lt o ho
    · show ((decRem (decRem st.heap bid q) best.id q).map Order.id).Nodup
      rw [decRem_map_id, decRem_map_id]
      exact hWF.heap_nodup
    · intro o2 ho2
      have htr : (execute_trade_buy st bid best q).trades =
          st.trades ++ [⟨bid, best.id, best.price, q⟩] := rfl
      obtain ⟨o1, ho1, ho1eq⟩ := List.mem_map.mp ho2
      obtain ⟨o, ho, hoeq⟩ := List.mem_map.mp ho1
      have e1 : o1 = if o.id = bid
          then { o with remaining_quantity := o.remaining_quantity - q }
          else o := hoeq.symm
      have e2 : o2 = if o1.id = best.id
          then { o1 with remaining_quantity := o1.remaining_quantity - q }
          else o1 := ho1eq.symm
      have hT := hWF.traded o ho
      have hro := remOf_eq_of_mem_nodup ho hWF.heap_nodup
      rw [htr]
      by_cases h1 : o.id = bid
      · rw [if_pos h1] at e1
        have hcond : ¬ (o1.id = best.id) := by
          rw [e1]
          show ¬ (o.id = best.id)
          intro he
          exact hne (he.symm.trans h1)
        rw [if_neg hcond] at e2
        have hrem : o.remaining_quantity = brem := by rw [← hbrem, ← h1, hro]
        have hqle : q ≤ o.remaining_quantity := by
          rw [hq, hrem]
          exact Nat.min_le_left _ _
        rw [e2, e1, tradedQty_append, tradedQty_singleton]
        show tradedQty o.id st.trades +
            ((if bid = o.id then q else 0) + (if best.id = o.id then q else 0)) +
            (o.remaining_quantity - q) ≤ o.quantity
        rw [if_pos h1.symm, if_neg (fun he => hne (he.trans h1))]
        omega
      · rw [if_neg h1] at e1
        rw [e1] at e2
        by_cases h2 : o.id = best.id
        · rw [if_pos h2] at e2
          have hbq : remOf st.heap best.id = o.remaining_quantity := by
            rw [← h2, hro]
          have hqle : q ≤ o.remaining_quantity := by
            rw [hq, ← hbq]
            exact Nat.min_le_right _ _
          rw [e2, tradedQty_append, tradedQty_singleton]
          show tradedQty o.id st.trades +
              ((if bid = o.id then q else 0) + (if best.id = o.id then q else 0)) +
              (o.remaining_quantity - q) ≤ o.quantity
          rw [if_neg (fun he => h1 he.symm), if_pos h2.symm]
          omega
        · rw [if_neg h2] at e2
          rw [e2, tradedQty_append, tradedQty_singleton]
          show tradedQty o.id st.trades +
              ((if bid = o.id then q else 0) + (if best.id = o.id then q else 0)) +
              o.remaining_quantity ≤ o.quantity
          rw [if_neg (fun he => h1 he.symm), if_neg (fun he => h2 he.symm)]
          omega
    · intro t ht
      rcases List.mem_append.mp ht with hold | hnew
      · exact hWF.trade_ids_lt t hold
      · rw [List.mem_singleton] at hnew
        subst hnew
        exact ⟨hbid, hlt.trans hbid⟩
    · intro t ht
      rcases List.mem_append.mp ht with hold | hnew
      · obtain ⟨hbs, o, ho, hty, hp, hid⟩ := hWF.maker t hold
        obtain ⟨o2, ho2, hs⟩ := hfwd o ho
        exact ⟨hbs, o2, ho2, hs.2.2.2.1.trans hty, hp.trans hs.2.1.symm,
          hs.1.trans hid⟩
      · rw [List.mem_singleton] at hnew
        subst hnew
        refine ⟨hne', ?_⟩
        obtain ⟨o, ho, hid, hp, _, hty, _⟩ := hWF.sell_link best hbest
        obtain ⟨o2, ho2, hs⟩ := hfwd o ho
        refine ⟨o2, ho2, hs.2.2.2.1.trans hty, hs.2.1.symm ▸ hp.symm, ?_⟩
        show o2.id = min bid best.id
        rw [Nat.min_eq_right (Nat.le_of_lt hlt), hs.1, hid]
    · intro i hi
      show i < st.next_order_id
      have : i ∈ st.order_map := by
        revert hi
        show i ∈ (if remOf st.heap best.id - q = 0
          then eraseId st.order_map best.id else st.order_map) → _
        split
        · exact fun hi => eraseId_subset hi
        · exact id
      exact hWF.map_ids_lt i this
  · rw [hrem2, if_neg hne', if_pos rfl, hbrem]
  · intro j
    rw [hrem2]
    split_ifs <;> omega

end Orderbook

namespace Orderbook

theorem execute_trade_sell_spec {st : OrderBook} {sid : Nat} {best : QEntry}
    {srem q : Nat}
    (hWF : WF st)
    (hbest : best ∈ st.buy_orders)
    (hsrem : remOf st.heap sid = srem)
    (hsid : sid < st.next_order_id)
    (hbuy_lt : ∀ e ∈ st.buy_orders, e.id < sid)
    (hq : q = min srem (remOf st.heap best.id)) :
    WF (execute_trade_sell st sid best q) ∧
    remOf (execute_trade_sell st sid best q).heap sid = srem - q ∧
    (∀ j, remOf (execute_trade_sell st sid best q).heap j ≤ remOf st.heap j) ∧
    (∀ o ∈ st.heap, ∃ o2 ∈ (execute_trade_sell st sid best q).heap, shapeEq o2 o) := by
  have hlt : best.id < sid := hbuy_lt best hbest
  have hne : best.id ≠ sid := Nat.ne_of_lt hlt
  have hne' : ¬ sid = best.id := fun he => hne he.symm
  have hrem2 : ∀ j, remOf (execute_trade_sell st sid best q).heap j =
      if j = best.id then
        (if j = sid then remOf st.heap j - q else remOf st.heap j) - q
      else (if j = sid then remOf st.heap j - q else remOf st.heap j) := by
    intro j
    show remOf (decRem (decRem st.heap sid q) best.id q) j = _
    rw [remOf_decRem, remOf_decRem]
  have hfwd : ∀ o ∈ st.heap,
      ∃ o2 ∈ (execute_trade_sell st sid best q).heap, shapeEq o2 o := by
    intro o ho
    obtain ⟨o1, ho1, hs1, _⟩ := mem_decRem_shape st.heap sid q ho
    obtain ⟨o2, ho2, hs2, _⟩ := mem_decRem_shape (decRem st.heap sid q) best.id q ho1
    exact ⟨o2, ho2, shapeEq_trans hs2 hs1⟩
  have hbwd : ∀ o2 ∈ (execute_trade_sell st sid best q).heap,
      ∃ o ∈ st.heap, shapeEq o2 o := by
    intro o2 ho2
    obtain ⟨o1, ho1, hs1, _⟩ := decRem_shape (decRem st.heap sid q) best.id q ho2
    obtain ⟨o, ho, hs2, _⟩ := decRem_shape st.heap sid q ho1
    exact ⟨o, ho, shapeEq_trans hs1 hs2⟩
  refine ⟨?_, ?_, ?_, hfwd⟩
  · refine {
      buy_sorted := hWF.buy_sorted
      sell_sorted := hWF.sell_sorted
      buy_link := ?_
      sell_link := ?_
      buy_ids_lt := hWF.buy_ids_lt
      sell_ids_lt := hWF.sell_ids_lt
      buy_ts_lt := hWF.buy_ts_lt
      sell_ts_lt := hWF.sell_ts_lt
      not_crossed := ?_
      heap_ids_lt := ?_
      heap_ts_lt := ?_
      heap_nodup := ?_
      traded := ?_
      trade_ids_lt := ?_
      maker := ?_
      map_ids_lt := ?_
      next_pos := hWF.next_pos }
    · intro e he
      obtain ⟨o, ho, hid, hp, ht, hty, hsd⟩ := hWF.buy_link e he
      obtain ⟨o2, ho2, hs⟩ := hfwd o ho
      obtain ⟨si, sp, sts, sty, ssd, _⟩ := hs
      exact ⟨o2, ho2, si.trans hid, sp.trans hp, sts.trans ht, sty.trans hty,
        ssd.trans hsd⟩
    · intro e he
      obtain ⟨o, ho, hid, hp, ht, hty, hsd⟩ := hWF.sell_link e he
      obtain ⟨o2, ho2, hs⟩ := hfwd o ho
      obtain ⟨si, sp, sts, sty, ssd, _⟩ := hs
      exact ⟨o2, ho2, si.trans hid, sp.trans hp, sts.trans ht, sty.trans hty,
        ssd.trans hsd⟩
    · intro e he f hf h1 h2
      refine hWF.not_crossed e he f hf ?_ ?_
      · calc 0 < _ := h1
          _ ≤ remOf st.heap e.id := by rw [hrem2]; split_ifs <;> omega
      · calc 0 < _ := h2
          _ ≤ remOf st.heap f.id := by rw [hrem2]; split_ifs <;> omega
    · intro o2 ho2
      obtain ⟨o, ho, hs⟩ := hbwd o2 ho2
      exact hs.1 ▸ hWF.heap_ids_lt o ho
    · intro o2 ho2
      obtain ⟨o, ho, hs⟩ := hbwd o2 ho2
      exact hs.2.2.1 ▸ hWF.heap_ts_lt o ho
    · show ((decRem (decRem st.heap sid q) best.id q).map Order.id).Nodup
      rw [decRem_map_id, decRem_map_id]
      exact hWF.heap_nodup
    · intro o2 ho2
      have htr : (execute_trade_sell st sid best q).trades =
          st.trades ++ [⟨best.id, sid, best.price, q⟩] := rfl
      obtain ⟨o1, ho1, ho1eq⟩ := List.mem_map.mp ho2
      obtain ⟨o, ho, hoeq⟩ := List.mem_map.mp ho1
      have e1 : o1 = if o.id = sid
          then { o with remaining_quantity := o.remaining_quantity - q }
          else o := hoeq.symm
      have e2 : o2 = if o1.id = best.id
          then { o1 with remaining_quantity := o1.remaining_quantity - q }
          else o1 := ho1eq.symm
      have hT := hWF.traded o ho
      have hro := remOf_eq_of_mem_nodup ho hWF.heap_nodup
      rw [htr]
      by_cases h1 : o.id = sid
      · rw [if_pos h1] at e1
        have hcond : ¬ (o1.id = best.id) := by
          rw [e1]
          show ¬ (o.id = best.id)
          intro he
          exact hne (he.symm.trans h1)
        rw [if_neg hcond] at e2
        have hrem : o.remaining_quantity = srem := by rw [← hsrem, ← h1, hro]
        have hqle : q ≤ o.remaining_quantity := by
          rw [hq, hrem]
          exact Nat.min_le_left _ _
        rw [e2, e1, tradedQty_append, tradedQty_singleton]
        show tradedQty o.id st.trades +
            ((if best.id = o.id then q else 0) + (if sid = o.id then q else 0)) +
            (o.remaining_quantity - q) ≤ o.quantity
        rw [if_pos h1.symm, if_neg (fun he => hne (he.trans h1))]
        omega
      · rw [if_neg h1] at e1
        rw [e1] at e2
        by_cases h2 : o.id = best.id
        · rw [if_pos h2] at e2
          have hbq : remOf st.heap best.id = o.remaining_quantity := by
            rw [← h2, hro]
          have hqle : q ≤ o.remaining_quantity := by
            rw [hq, ← hbq]
            exact Nat.min_le_right _ _
          rw [e2, tradedQty_append, tradedQty_singleton]
          show tradedQty o.id st.trades +
              ((if best.id = o.id then q else 0) + (if sid = o.id then q else 0)) +
              (o.remaining_quantity - q) ≤ o.quantity
          rw [if_pos h2.symm, if_neg (fun he => h1 he.symm)]
          omega
        · rw [if_neg h2] at e2
          rw [e2, tradedQty_append, tradedQty_singleton]
          show tradedQty o.id st.trades +
              ((if best.id = o.id then q else 0) + (if sid = o.id then q else 0)) +
              o.remaining_quantity ≤ o.quantity
          rw [if_neg (fun he => h2 he.symm), if_neg (fun he => h1 he.symm)]
          omega
    · intro t ht
      rcases List.mem_append.mp ht with hold | hnew
      · exact hWF.trade_ids_lt t hold
      · rw [List.mem_singleton] at hnew
        subst hnew
        exact ⟨hlt.trans hsid, hsid⟩
    · intro t ht
      rcases List.mem_append.mp ht with hold | hnew
      · obtain ⟨hbs, o, ho, hty, hp, hid⟩ := hWF.maker t hold
        obtain ⟨o2, ho2, hs⟩ := hfwd o ho
        exact ⟨hbs, o2, ho2, hs.2.2.2.1.trans hty, hp.trans hs.2.1.symm,
          hs.1.trans hid⟩
      · rw [List.mem_singleton] at hnew
        subst hnew
        refine ⟨hne, ?_⟩
        obtain ⟨o, ho, hid, hp, _, hty, _⟩ := hWF.buy_link best hbest
        obtain ⟨o2, ho2, hs⟩ := hfwd o ho
        refine ⟨o2, ho2, hs.2.2.2.1.trans hty, hs.2.1.symm ▸ hp.symm, ?_⟩
        show o2.id = min best.id sid
        rw [Nat.min_eq_left (Nat.le_of_lt hlt), hs.1, hid]
    · intro i hi
      show i < st.next_order_id
      have hmem : i ∈ st.order_map := by
        revert hi
        show i ∈ (if remOf st.heap best.id - q = 0
          then eraseId st.order_map best.id else st.order_map) → _
        split
        · exact fun hi => eraseId_subset hi
        · exact id
      exact hWF.map_ids_lt i hmem
  · rw [hrem2, if_neg hne', if_pos rfl, hsrem]
  · intro j
    rw [hrem2]
    split_ifs <;> omega

end Orderbook

namespace Orderbook

/-- Everything the limit-buy matching loop guarantees, relative to the state
`st` and incoming remaining `brem` it started from. -/
structure BuyLoopOut (bid : Nat) (bprice : ℚ) (st : OrderBook) (brem : Nat)
    (out : OrderBook × Nat) : Prop where
  wf : WF out.1
  buy_sfx : out.1.buy_orders <:+ st.buy_orders
  sell_sfx : out.1.sell_orders <:+ st.sell_orders
  map_sub : ∀ i ∈ out.1.order_map, i ∈ st.order_map
  next_eq : out.1.next_order_id = st.next_order_id
  ts_eq : out.1.next_ts = st.next_ts
  rem_bid : remOf out.1.heap bid = out.2
  rem_le_brem : out.2 ≤ brem
  rem_mono : ∀ j, remOf out.1.heap j ≤ remOf st.heap j
  shape : ∀ o ∈ st.heap, ∃ o2 ∈ out.1.heap, shapeEq o2 o
  price_break : out.2 ≠ 0 → ∀ f ∈ out.1.sell_orders,
    0 < remOf out.1.heap f.id → bprice < f.price

theorem BuyLoopOut_stay {bid : Nat} {bprice : ℚ} {st : OrderBook} {brem : Nat}
    (hWF : WF st) (hrem : remOf st.heap bid = brem)
    (hpb : brem ≠ 0 → ∀ f ∈ st.sell_orders, 0 < remOf st.heap f.id →
      bprice < f.price) :
    BuyLoopOut bid bprice st brem (st, brem) :=
  { wf := hWF
    buy_sfx := List.suffix_refl _
    sell_sfx := List.suffix_refl _
    map_sub := fun _ hi => hi
    next_eq := rfl
    ts_eq := rfl
    rem_bid := hrem
    rem_le_brem := Nat.le_refl _
    rem_mono := fun _ => Nat.le_refl _
    shape := fun o ho => ⟨o, ho, shapeEq_refl o⟩
    price_break := hpb }

theorem BuyLoopOut_clean_stay {bid : Nat} {bprice : ℚ} {st : OrderBook}
    {brem : Nat} (hWF : WF st) (hrem : remOf st.heap bid = brem)
    (hpb : brem ≠ 0 → ∀ f ∈ (clean_empty_orders st).sell_orders,
      0 < remOf st.heap f.id → bprice < f.price) :
    BuyLoopOut bid bprice st brem (clean_empty_orders st, brem) :=
  { wf := WF_clean hWF
    buy_sfx := cleanQueue_suffix _ _
    sell_sfx := cleanQueue_suffix _ _
    map_sub := fun _ hi => hi
    next_eq := rfl
    ts_eq := rfl
    rem_bid := hrem
    rem_le_brem := Nat.le_refl _
    rem_mono := fun _ => Nat.le_refl _
    shape := fun o ho => ⟨o, ho, shapeEq_refl o⟩
    price_break := hpb }

theorem match_buy_order_spec (bid : Nat) (bprice : ℚ) :
    ∀ (fuel : Nat) (st : OrderBook) (brem : Nat), WF st →
    remOf st.heap bid = brem → bid < st.next_order_id →
    (∀ e ∈ st.buy_orders, e.id < bid) →
    (∀ e ∈ st.sell_orders, e.id < bid) →
    brem ≤ fuel →
    BuyLoopOut bid bprice st brem (match_buy_order bid bprice fuel st brem) := by
  intro fuel
  induction fuel with
  | zero =>
    intro st brem hWF hrem hbid hbuy hsell hfuel
    have hb0 : brem = 0 := Nat.le_zero.mp hfuel
    simp only [match_buy_order]
    exact BuyLoopOut_stay hWF hrem fun hne => absurd hb0 hne
  | succ fuel ih =>
    intro st brem hWF hrem hbid hbuy hsell hfuel
    simp only [match_buy_order]
    by_cases hb0 : brem = 0
    · rw [if_pos hb0]
      exact BuyLoopOut_stay hWF hrem fun hne => absurd hb0 hne
    · rw [if_neg hb0]
      by_cases hemp : st.sell_orders.isEmpty
      · rw [if_pos hemp]
        have hnil : st.sell_orders = [] := List.isEmpty_iff.mp hemp
        exact BuyLoopOut_stay hWF hrem fun _ f hf =>
          absurd hf (by rw [hnil]; exact List.not_mem_nil f)
      · rw [if_neg hemp]
        have hWFc : WF (clean_empty_orders st) := WF_clean hWF
        have hbs := cleanQueue_suffix st.heap st.buy_orders
        have hss := cleanQueue_suffix st.heap st.sell_orders
        split
        · rename_i heq
          exact BuyLoopOut_clean_stay hWF hrem fun _ f hf =>
            absurd hf (by rw [heq]; exact List.not_mem_nil f)
        · rename_i best tail heq
          have heq' : cleanQueue st.heap st.sell_orders = best :: tail := heq
          have hpos : 0 < remOf st.heap best.id := cleanQueue_head_pos heq'
          split_ifs with hr0 hpr
          · exact absurd hr0 (Nat.pos_iff_ne_zero.mp hpos)
          · refine BuyLoopOut_clean_stay hWF hrem fun _ f hf hfr => ?_
            have hf' : f ∈ best :: tail := heq' ▸ hf
            rcases List.mem_cons.mp hf' with rfl | hft
            · exact hpr
            · have hsrt := hWFc.sell_sorted
              rw [heq, List.pairwise_cons] at hsrt
              exact lt_of_lt_of_le hpr (sellOutranks_price_le (hsrt.1 f hft))
          · have hbestmem : best ∈ (clean_empty_orders st).sell_orders := by
              show best ∈ cleanQueue st.heap st.sell_orders
              rw [heq']
              exact List.mem_cons_self best tail
            obtain ⟨hWF2, hrem2, hmono2, hshape2⟩ :=
              execute_trade_buy_spec hWFc hbestmem hrem hbid
                (fun e he => hsell e (hss.subset he)) rfl
            have hq1 : 1 ≤ min brem (remOf (clean_empty_orders st).heap best.id) := by
              refine Nat.le_min.mpr ⟨by omega, ?_⟩
              exact hpos
            have hout := ih
              (execute_trade_buy (clean_empty_orders st) bid best
                (min brem (remOf (clean_empty_orders st).heap best.id)))
              (brem - min brem (remOf (clean_empty_orders st).heap best.id))
              hWF2 hrem2 hbid
              (fun e he => hbuy e (hbs.subset he))
              (fun e he => hsell e (hss.subset he))
              (by omega)
            refine {
              wf := hout.wf
              buy_sfx := hout.buy_sfx.trans hbs
              sell_sfx := hout.sell_sfx.trans hss
              map_sub := ?_
              next_eq := hout.next_eq
              ts_eq := hout.ts_eq
              rem_bid := hout.rem_bid
              rem_le_brem := le_trans hout.rem_le_brem (by omega)
              rem_mono := fun j => (hout.rem_mono j).trans (hmono2 j)
              shape := ?_
              price_break := hout.price_break }
            · intro i hi
              have hi2 := hout.map_sub i hi
              revert hi2
              show i ∈ (if remOf (clean_empty_orders st).heap best.id -
                  min brem (remOf (clean_empty_orders st).heap best.id) = 0
                then eraseId (clean_empty_orders st).order_map best.id
                else (clean_empty_orders st).order_map) → i ∈ st.order_map
              split
              · exact fun hi2 => eraseId_subset hi2
              · exact id
            · intro o ho
              obtain ⟨o2, ho2, hs2⟩ := hshape2 o ho
              obtain ⟨o3, ho3, hs3⟩ := hout.shape o2 ho2
              exact ⟨o3, ho3, shapeEq_trans hs3 hs2⟩

end Orderbook

namespace Orderbook

/-- Everything the limit-sell matching loop guarantees. -/
structure SellLoopOut (sid : Nat) (sprice : ℚ) (st : OrderBook) (srem : Nat)
    (out : OrderBook × Nat) : Prop where
  wf : WF out.1
  buy_sfx : out.1.buy_orders <:+ st.buy_orders
  sell_sfx : out.1.sell_orders <:+ st.sell_orders
  map_sub : ∀ i ∈ out.1.order_map, i ∈ st.order_map
  next_eq : out.1.next_order_id = st.next_order_id
  ts_eq : out.1.next_ts = st.next_ts
  rem_sid : remOf out.1.heap sid = out.2
  rem_le_srem : out.2 ≤ srem
  rem_mono : ∀ j, remOf out.1.heap j ≤ remOf st.heap j
  shape : ∀ o ∈ st.heap, ∃ o2 ∈ out.1.heap, shapeEq o2 o
  price_break : out.2 ≠ 0 → ∀ f ∈ out.1.buy_orders,
    0 < remOf out.1.heap f.id → f.price < sprice

theorem SellLoopOut_stay {sid : Nat} {sprice : ℚ} {st : OrderBook} {srem : Nat}
    (hWF : WF st) (hrem : remOf st.heap sid = srem)
    (hpb : srem ≠ 0 → ∀ f ∈ st.buy_orders, 0 < remOf st.heap f.id →
      f.price < sprice) :
    SellLoopOut sid sprice st srem (st, srem) :=
  { wf := hWF
    buy_sfx := List.suffix_refl _
    sell_sfx := List.suffix_refl _
    map_sub := fun _ hi => hi
    next_eq := rfl
    ts_eq := rfl
    rem_sid := hrem
    rem_le_srem := Nat.le_refl _
    rem_mono := fun _ => Nat.le_refl _
    shape := fun o ho => ⟨o, ho, shapeEq_refl o⟩
    price_break := hpb }

theorem SellLoopOut_clean_stay {sid : Nat} {sprice : ℚ} {st : OrderBook}
    {srem : Nat} (hWF : WF st) (hrem : remOf st.heap sid = srem)
    (hpb : srem ≠ 0 → ∀ f ∈ (clean_empty_orders st).buy_orders,
      0 < remOf st.heap f.id → f.price < sprice) :
    SellLoopOut sid sprice st srem (clean_empty_orders st, srem) :=
  { wf := WF_clean hWF
    buy_sfx := cleanQueue_suffix _ _
    sell_sfx := cleanQueue_suffix _ _
    map_sub := fun _ hi => hi
    next_eq := rfl
    ts_eq := rfl
    rem_sid := hrem
    rem_le_srem := Nat.le_refl _
    rem_mono := fun _ => Nat.le_refl _
    shape := fun o ho => ⟨o, ho, shapeEq_refl o⟩
    price_break := hpb }

theorem match_sell_order_spec (sid : Nat) (sprice : ℚ) :
    ∀ (fuel : Nat) (st : OrderBook) (srem : Nat), WF st →
    remOf st.heap sid = srem → sid < st.next_order_id →
    (∀ e ∈ st.buy_orders, e.id < sid) →
    (∀ e ∈ st.sell_orders, e.id < sid) →
    srem ≤ fuel →
    SellLoopOut sid sprice st srem (match_sell_order sid sprice fuel st srem) := by
  intro fuel
  induction fuel with
  | zero =>
    intro st srem hWF hrem hsid hbuy hsell hfuel
    have hs0 : srem = 0 := Nat.le_zero.mp hfuel
    simp only [match_sell_order]
    exact SellLoopOut_stay hWF hrem fun hne => absurd hs0 hne
  | succ fuel ih =>
    intro st srem hWF hrem hsid hbuy hsell hfuel
    simp only [match_sell_order]
    by_cases hs0 : srem = 0
    · rw [if_pos hs0]
      exact SellLoopOut_stay hWF hrem fun hne => absurd hs0 hne
    · rw [if_neg hs0]
      by_cases hemp : st.buy_orders.isEmpty
      · rw [if_pos hemp]
        have hnil : st.buy_orders = [] := List.isEmpty_iff.mp hemp
        exact SellLoopOut_stay hWF hrem fun _ f hf =>
          absurd hf (by rw [hnil]; exact List.not_mem_nil f)
      · rw [if_neg hemp]
        have hWFc : WF (clean_empty_orders st) := WF_clean hWF
        have hbs := cleanQueue_suffix st.heap st.buy_orders
        have hss := cleanQueue_suffix st.heap st.sell_orders
        split
        · rename_i heq
          exact SellLoopOut_clean_stay hWF hrem fun _ f hf =>
            absurd hf (by rw [heq]; exact List.not_mem_nil f)
        · rename_i best tail heq
          have heq' : cleanQueue st.heap st.buy_orders = best :: tail := heq
          have hpos : 0 < remOf st.heap best.id := cleanQueue_head_pos heq'
          split_ifs with hr0 hpr
          · exact absurd hr0 (Nat.pos_iff_ne_zero.mp hpos)
          · refine SellLoopOut_clean_stay hWF hrem fun _ f hf hfr => ?_
            have hf' : f ∈ best :: tail := heq' ▸ hf
            rcases List.mem_cons.mp hf' with rfl | hft
            · exact hpr
            · have hsrt := hWFc.buy_sorted
              rw [heq, List.pairwise_cons] at hsrt
              exact lt_of_le_of_lt (buyOutranks_price_ge (hsrt.1 f hft)) hpr
          · have hbestmem : best ∈ (clean_empty_orders st).buy_orders := by
              show best ∈ cleanQueue st.heap st.buy_orders
              rw [heq']
              exact List.mem_cons_self best tail
            obtain ⟨hWF2, hrem2, hmono2, hshape2⟩ :=
              execute_trade_sell_spec hWFc hbestmem hrem hsid
                (fun e he => hbuy e (hbs.subset he)) rfl
            have hq1 : 1 ≤ min srem (remOf (clean_empty_orders st).heap best.id) := by
              refine Nat.le_min.mpr ⟨by omega, ?_⟩
              exact hpos
            have hout := ih
              (execute_trade_sell (clean_empty_orders st) sid best
                (min srem (remOf (clean_empty_orders st).heap best.id)))
              (srem - min srem (remOf (clean_empty_orders st).heap best.id))
              hWF2 hrem2 hsid
              (fun e he => hbuy e (hbs.subset he))
              (fun e he => hsell e (hss.subset he))
              (by omega)
            refine {
              wf := hout.wf
              buy_sfx := hout.buy_sfx.trans hbs
              sell_sfx := hout.sell_sfx.trans hss
              map_sub := ?_
              next_eq := hout.next_eq
              ts_eq := hout.ts_eq
              rem_sid := hout.rem_sid
              rem_le_srem := le_trans hout.rem_le_srem (by omega)
              rem_mono := fun j => (hout.rem_mono j).trans (hmono2 j)
              shape := ?_
              price_break := hout.price_break }
            · intro i hi
              have hi2 := hout.map_sub i hi
              revert hi2
              show i ∈ (if remOf (clean_empty_orders st).heap best.id -
                  min srem (remOf (clean_empty_orders st).heap best.id) = 0
                then eraseId (clean_empty_orders st).order_map best.id
                else (clean_empty_orders st).order_map) → i ∈ st.order_map
              split
              · exact fun hi2 => eraseId_subset hi2
              · exact id
            · intro o ho
              obtain ⟨o2, ho2, hs2⟩ := hshape2 o ho
              obtain ⟨o3, ho3, hs3⟩ := hout.shape o2 ho2
              exact ⟨o3, ho3, shapeEq_trans hs3 hs2⟩

end Orderbook

namespace Orderbook

/-- Everything the market-buy sweep guarantees. -/
structure MarketBuyOut (mid : Nat) (st : OrderBook) (brem : Nat)
    (out : OrderBook × List Trade) : Prop where
  wf : WF out.1
  buy_sfx : out.1.buy_orders <:+ st.buy_orders
  sell_sfx : out.1.sell_orders <:+ st.sell_orders
  map_sub : ∀ i ∈ out.1.order_map, i ∈ st.order_map
  next_eq : out.1.next_order_id = st.next_order_id
  ts_eq : out.1.next_ts = st.next_ts
  trades_eq : out.1.trades = st.trades ++ out.2
  all_mine : ∀ t ∈ out.2, t.buyer_id = mid
  rem_mid : remOf out.1.heap mid + sumQty out.2 = brem
  rem_mono : ∀ j, remOf out.1.heap j ≤ remOf st.heap j
  shape : ∀ o ∈ st.heap, ∃ o2 ∈ out.1.heap, shapeEq o2 o
  fill_or_empty : remOf out.1.heap mid = 0 ∨ out.1.sell_orders = []

theorem MarketBuyOut_stay {mid : Nat} {st : OrderBook} {brem : Nat}
    (hWF : WF st) (hrem : remOf st.heap mid = brem)
    (hfe : brem = 0 ∨ st.sell_orders = []) :
    MarketBuyOut mid st brem (st, []) :=
  { wf := hWF
    buy_sfx := List.suffix_refl _
    sell_sfx := List.suffix_refl _
    map_sub := fun _ hi => hi
    next_eq := rfl
    ts_eq := rfl
    trades_eq := by simp
    all_mine := fun t ht => absurd ht (List.not_mem_nil t)
    rem_mid := by simp [sumQty, hrem]
    rem_mono := fun _ => Nat.le_refl _
    shape := fun o ho => ⟨o, ho, shapeEq_refl o⟩
    fill_or_empty := by
      rcases hfe with h | h
      · exact Or.inl (hrem.trans h)
      · exact Or.inr h }

theorem MarketBuyOut_clean_stay {mid : Nat} {st : OrderBook} {brem : Nat}
    (hWF : WF st) (hrem : remOf st.heap mid = brem)
    (hfe : brem = 0 ∨ (clean_empty_orders st).sell_orders = []) :
    MarketBuyOut mid st brem (clean_empty_orders st, []) :=
  { wf := WF_clean hWF
    buy_sfx := cleanQueue_suffix _ _
    sell_sfx := cleanQueue_suffix _ _
    map_sub := fun _ hi => hi
    next_eq := rfl
    ts_eq := rfl
    trades_eq := by show st.trades = st.trades ++ []; simp
    all_mine := fun t ht => absurd ht (List.not_mem_nil t)
    rem_mid := by
      show remOf st.heap mid + sumQty [] = brem
      simp [sumQty]
      exact hrem
    rem_mono := fun _ => Nat.le_refl _
    shape := fun o ho => ⟨o, ho, shapeEq_refl o⟩
    fill_or_empty := by
      rcases hfe with h | h
      · exact Or.inl (hrem.trans h)
      · exact Or.inr h }

theorem market_buy_sweep_spec (mid : Nat) :
    ∀ (fuel : Nat) (st : OrderBook) (brem : Nat), WF st →
    remOf st.heap mid = brem → mid < st.next_order_id →
    (∀ e ∈ st.buy_orders, e.id < mid) →
    (∀ e ∈ st.sell_orders, e.id < mid) →
    brem ≤ fuel →
    MarketBuyOut mid st brem (market_buy_sweep mid fuel st brem) := by
  intro fuel
  induction fuel with
  | zero =>
    intro st brem hWF hrem hmid hbuy hsell hfuel
    have hb0 : brem = 0 := Nat.le_zero.mp hfuel
    simp only [market_buy_sweep]
    exact MarketBuyOut_stay hWF hrem (Or.inl hb0)
  | succ fuel ih =>
    intro st brem hWF hrem hmid hbuy hsell hfuel
    simp only [market_buy_sweep]
    by_cases hb0 : brem = 0
    · rw [if_pos hb0]
      exact MarketBuyOut_stay hWF hrem (Or.inl hb0)
    · rw [if_neg hb0]
      by_cases hemp : st.sell_orders.isEmpty
      · rw [if_pos hemp]
        exact MarketBuyOut_stay hWF hrem (Or.inr (List.isEmpty_iff.mp hemp))
      · rw [if_neg hemp]
        have hWFc : WF (clean_empty_orders st) := WF_clean hWF
        have hbs := cleanQueue_suffix st.heap st.buy_orders
        have hss := cleanQueue_suffix st.heap st.sell_orders
        split
        · rename_i heq
          exact MarketBuyOut_clean_stay hWF hrem (Or.inr heq)
        · rename_i best tail heq
          have heq' : cleanQueue st.heap st.sell_orders = best :: tail := heq
          have hpos : 0 < remOf st.heap best.id := cleanQueue_head_pos heq'
          split_ifs with hr0
          · exact absurd hr0 (Nat.pos_iff_ne_zero.mp hpos)
          · have hbestmem : best ∈ (clean_empty_orders st).sell_orders := by
              show best ∈ cleanQueue st.heap st.sell_orders
              rw [heq']
              exact List.mem_cons_self best tail
            obtain ⟨hWF2, hrem2, hmono2, hshape2⟩ :=
              execute_trade_buy_spec hWFc hbestmem hrem hmid
                (fun e he => hsell e (hss.subset he)) rfl
            have hq1 : 1 ≤ min brem (remOf (clean_empty_orders st).heap best.id) := by
              refine Nat.le_min.mpr ⟨by omega, ?_⟩
              exact hpos
            have hqle : min brem (remOf (clean_empty_orders st).heap best.id) ≤ brem :=
              Nat.min_le_left _ _
            have hout := ih
              (execute_trade_buy (clean_empty_orders st) mid best
                (min brem (remOf (clean_empty_orders st).heap best.id)))
              (brem - min brem (remOf (clean_empty_orders st).heap best.id))
              hWF2 hrem2 hmid
              (fun e he => hbuy e (hbs.subset he))
              (fun e he => hsell e (hss.subset he))
              (by omega)
            refine {
              wf := hout.wf
              buy_sfx := hout.buy_sfx.trans hbs
              sell_sfx := hout.sell_sfx.trans hss
              map_sub := ?_
              next_eq := hout.next_eq
              ts_eq := hout.ts_eq
              trades_eq := ?_
              all_mine := ?_
              rem_mid := ?_
              rem_mono := fun j => (hout.rem_mono j).trans (hmono2 j)
              shape := ?_
              fill_or_empty := hout.fill_or_empty }
            · intro i hi
              have hi2 := hout.map_sub i hi
              revert hi2
              show i ∈ (if remOf (clean_empty_orders st).heap best.id -
                  min brem (remOf (clean_empty_orders st).heap best.id) = 0
                then eraseId (clean_empty_orders st).order_map best.id
                else (clean_empty_orders st).order_map) → i ∈ st.order_map
              split
              · exact fun hi2 => eraseId_subset hi2
              · exact id
            · have h2 := hout.trades_eq
              show (market_buy_sweep mid fuel _ _).1.trades =
                st.trades ++ (Trade.mk mid best.id best.price
                  (min brem (remOf (clean_empty_orders st).heap best.id)) ::
                  (market_buy_sweep mid fuel _ _).2)
              rw [h2]
              show (st.trades ++ [Trade.mk mid best.id best.price
                  (min brem (remOf (clean_empty_orders st).heap best.id))]) ++ _ = _
              rw [List.append_assoc]
              rfl
            · intro t ht
              rcases List.mem_cons.mp ht with rfl | htl
              · rfl
              · exact hout.all_mine t htl
            · have h3 := hout.rem_mid
              show remOf (market_buy_sweep mid fuel _ _).1.heap mid +
                sumQty (Trade.mk mid best.id best.price
                  (min brem (remOf (clean_empty_orders st).heap best.id)) ::
                  (market_buy_sweep mid fuel _ _).2) = brem
              rw [sumQty_cons]
              have hqr : (Trade.mk mid best.id best.price
                  (min brem (remOf (clean_empty_orders st).heap best.id))).quantity =
                  min brem (remOf (clean_empty_orders st).heap best.id) := rfl
              rw [hqr]
              omega
            · intro o ho
              obtain ⟨o2, ho2, hs2⟩ := hshape2 o ho
              obtain ⟨o3, ho3, hs3⟩ := hout.shape o2 ho2
              exact ⟨o3, ho3, shapeEq_trans hs3 hs2⟩

end Orderbook

namespace Orderbook

/-- Everything the market-sell sweep guarantees. -/
structure MarketSellOut (mid : Nat) (st : OrderBook) (srem : Nat)
    (out : OrderBook × List Trade) : Prop where
  wf : WF out.1
  buy_sfx : out.1.buy_orders <:+ st.buy_orders
  sell_sfx : out.1.sell_orders <:+ st.sell_orders
  map_sub : ∀ i ∈ out.1.order_map, i ∈ st.order_map
  next_eq : out.1.next_order_id = st.next_order_id
  ts_eq : out.1.next_ts = st.next_ts
  trades_eq : out.1.trades = st.trades ++ out.2
  all_mine : ∀ t ∈ out.2, t.seller_id = mid
  rem_mid : remOf out.1.heap mid + sumQty out.2 = srem
  rem_mono : ∀ j, remOf out.1.heap j ≤ remOf st.heap j
  shape : ∀ o ∈ st.heap, ∃ o2 ∈ out.1.heap, shapeEq o2 o
  fill_or_empty : remOf out.1.heap mid = 0 ∨ out.1.buy_orders = []

theorem MarketSellOut_stay {mid : Nat} {st : OrderBook} {srem : Nat}
    (hWF : WF st) (hrem : remOf st.heap mid = srem)
    (hfe : srem = 0 ∨ st.buy_orders = []) :
    MarketSellOut mid st srem (st, []) :=
  { wf := hWF
    buy_sfx := List.suffix_refl _
    sell_sfx := List.suffix_refl _
    map_sub := fun _ hi => hi
    next_eq := rfl
    ts_eq := rfl
    trades_eq := by simp
    all_mine := fun t ht => absurd ht (List.not_mem_nil t)
    rem_mid := by simp [sumQty, hrem]
    rem_mono := fun _ => Nat.le_refl _
    shape := fun o ho => ⟨o, ho, shapeEq_refl o⟩
    fill_or_empty := by
      rcases hfe with h | h
      · exact Or.inl (hrem.trans h)
      · exact Or.inr h }

theorem MarketSellOut_clean_stay {mid : Nat} {st : OrderBook} {srem : Nat}
    (hWF : WF st) (hrem : remOf st.heap mid = srem)
    (hfe : srem = 0 ∨ (clean_empty_orders st).buy_orders = []) :
    MarketSellOut mid st srem (clean_empty_orders st, []) :=
  { wf := WF_clean hWF
    buy_sfx := cleanQueue_suffix _ _
    sell_sfx := cleanQueue_suffix _ _
    map_sub := fun _ hi => hi
    next_eq := rfl
    ts_eq := rfl
    trades_eq := by show st.trades = st.trades ++ []; simp
    all_mine := fun t ht => absurd ht (List.not_mem_nil t)
    rem_mid := by
      show remOf st.heap mid + sumQty [] = srem
      simp [sumQty]
      exact hrem
    rem_mono := fun _ => Nat.le_refl _
    shape := fun o ho => ⟨o, ho, shapeEq_refl o⟩
    fill_or_empty := by
      rcases hfe with h | h
      · exact Or.inl (hrem.trans h)
      · exact Or.inr h }

theorem market_sell_sweep_spec (mid : Nat) :
    ∀ (fuel : Nat) (st : OrderBook) (srem : Nat), WF st →
    remOf st.heap mid = srem → mid < st.next_order_id →
    (∀ e ∈ st.buy_orders, e.id < mid) →
    (∀ e ∈ st.sell_orders, e.id < mid) →
    srem ≤ fuel →
    MarketSellOut mid st srem (market_sell_sweep mid fuel st srem) := by
  intro fuel
  induction fuel with
  | zero =>
    intro st srem hWF hrem hmid hbuy hsell hfuel
    have hs0 : srem = 0 := Nat.le_zero.mp hfuel
    simp only [market_sell_sweep]
    exact MarketSellOut_stay hWF hrem (Or.inl hs0)
  | succ fuel ih =>
    intro st srem hWF hrem hmid hbuy hsell hfuel
    simp only [market_sell_sweep]
    by_cases hs0 : srem = 0
    · rw [if_pos hs0]
      exact MarketSellOut_stay hWF hrem (Or.inl hs0)
    · rw [if_neg hs0]
      by_cases hemp : st.buy_orders.isEmpty
      · rw [if_pos hemp]
        exact MarketSellOut_stay hWF hrem (Or.inr (List.isEmpty_iff.mp hemp))
      · rw [if_neg hemp]
        have hWFc : WF (clean_empty_orders st) := WF_clean hWF
        have hbs := cleanQueue_suffix st.heap st.buy_orders
        have hss := cleanQueue_suffix st.heap st.sell_orders
        split
        · rename_i heq
          exact MarketSellOut_clean_stay hWF hrem (Or.inr heq)
        · rename_i best tail heq
          have heq' : cleanQueue st.heap st.buy_orders = best :: tail := heq
          have hpos : 0 < remOf st.heap best.id := cleanQueue_head_pos heq'
          split_ifs with hr0
          · exact absurd hr0 (Nat.pos_iff_ne_zero.mp hpos)
          · have hbestmem : best ∈ (clean_empty_orders st).buy_orders := by
              show best ∈ cleanQueue st.heap st.buy_orders
              rw [heq']
              exact List.mem_cons_self best tail
            obtain ⟨hWF2, hrem2, hmono2, hshape2⟩ :=
              execute_trade_sell_spec hWFc hbestmem hrem hmid
                (fun e he => hbuy e (hbs.subset he)) rfl
            have hq1 : 1 ≤ min srem (remOf (clean_empty_orders st).heap best.id) := by
              refine Nat.le_min.mpr ⟨by omega, ?_⟩
              exact hpos
            have hqle : min srem (remOf (clean_empty_orders st).heap best.id) ≤ srem :=
              Nat.min_le_left _ _
            have hout := ih
              (execute_trade_sell (clean_empty_orders st) mid best
                (min srem (remOf (clean_empty_orders st).heap best.id)))
              (srem - min srem (remOf (clean_empty_orders st).heap best.id))
              hWF2 hrem2 hmid
              (fun e he => hbuy e (hbs.subset he))
              (fun e he => hsell e (hss.subset he))
              (by omega)
            refine {
              wf := hout.wf
              buy_sfx := hout.buy_sfx.trans hbs
              sell_sfx := hout.sell_sfx.trans hss
              map_sub := ?_
              next_eq := hout.next_eq
              ts_eq := hout.ts_eq
              trades_eq := ?_
              all_mine := ?_
              rem_mid := ?_
              rem_mono := fun j => (hout.rem_mono j).trans (hmono2 j)
              shape := ?_
              fill_or_empty := hout.fill_or_empty }
            · intro i hi
              have hi2 := hout.map_sub i hi
              revert hi2
              show i ∈ (if remOf (clean_empty_orders st).heap best.id -
                  min srem (remOf (clean_empty_orders st).heap best.id) = 0
                then eraseId (clean_empty_orders st).order_map best.id
                else (clean_empty_orders st).order_map) → i ∈ st.order_map
              split
              · exact fun hi2 => eraseId_subset hi2
              · exact id
            · have h2 := hout.trades_eq
              show (market_sell_sweep mid fuel _ _).1.trades =
                st.trades ++ (Trade.mk best.id mid best.price
                  (min srem (remOf (clean_empty_orders st).heap best.id)) ::
                  (market_sell_sweep mid fuel _ _).2)
              rw [h2]
              show (st.trades ++ [Trade.mk best.id mid best.price
                  (min srem (remOf (clean_empty_orders st).heap best.id))]) ++ _ = _
              rw [List.append_assoc]
              rfl
            · intro t ht
              rcases List.mem_cons.mp ht with rfl | htl
              · rfl
              · exact hout.all_mine t htl
            · have h3 := hout.rem_mid
              show remOf (market_sell_sweep mid fuel _ _).1.heap mid +
                sumQty (Trade.mk best.id mid best.price
                  (min srem (remOf (clean_empty_orders st).heap best.id)) ::
                  (market_sell_sweep mid fuel _ _).2) = srem
              rw [sumQty_cons]
              have hqr : (Trade.mk best.id mid best.price
                  (min srem (remOf (clean_empty_orders st).heap best.id))).quantity =
                  min srem (remOf (clean_empty_orders st).heap best.id) := rfl
              rw [hqr]
              omega
            · intro o ho
              obtain ⟨o2, ho2, hs2⟩ := hshape2 o ho
              obtain ⟨o3, ho3, hs3⟩ := hout.shape o2 ho2
              exact ⟨o3, ho3, shapeEq_trans hs3 hs2⟩

end Orderbook

namespace Orderbook

theorem remOf_register {st : OrderBook} (hWF : WF st) (side : OrderSide)
    (ty : OrderType) (price : ℚ) (qty : Nat) :
    remOf (st.heap ++ [⟨st.next_order_id, side, ty, price, qty, qty, st.next_ts⟩])
      st.next_order_id = qty ∧
    ∀ j, j ≠ st.next_order_id →
      remOf (st.heap ++ [⟨st.next_order_id, side, ty, price, qty, qty, st.next_ts⟩]) j =
      remOf st.heap j := by
  constructor
  · exact remOf_append_self st.heap _ st.next_order_id
      (fun x hx => Nat.ne_of_lt (hWF.heap_ids_lt x hx)) rfl
  · intro j hj
    exact remOf_append_of_forall_ne st.heap _ j
      (fun x hx => by
        rw [List.mem_singleton] at hx
        subst hx
        exact fun he => hj he.symm)

/-- Well-formedness survives allocating and (for limit orders) registering a
new order: the common prefix of `add_limit_order` and `add_market_order`. -/
theorem WF_register {st : OrderBook} (hWF : WF st) (side : OrderSide)
    (ty : OrderType) (price : ℚ) (qty : Nat) (m : List Nat)
    (hm : m = [] ∨ m = [st.next_order_id]) :
    WF { st with
      heap := st.heap ++ [⟨st.next_order_id, side, ty, price, qty, qty, st.next_ts⟩],
      order_map := st.order_map ++ m,
      next_order_id := st.next_order_id + 1,
      next_ts := st.next_ts + 1 } := by
  have hrem := remOf_register hWF side ty price qty
  refine {
    buy_sorted := hWF.buy_sorted
    sell_sorted := hWF.sell_sorted
    buy_link := ?_
    sell_link := ?_
    buy_ids_lt := fun e he => Nat.lt_succ_of_lt (hWF.buy_ids_lt e he)
    sell_ids_lt := fun e he => Nat.lt_succ_of_lt (hWF.sell_ids_lt e he)
    buy_ts_lt := fun e he => Nat.lt_succ_of_lt (hWF.buy_ts_lt e he)
    sell_ts_lt := fun e he => Nat.lt_succ_of_lt (hWF.sell_ts_lt e he)
    not_crossed := ?_
    heap_ids_lt := ?_
    heap_ts_lt := ?_
    heap_nodup := ?_
    traded := ?_
    trade_ids_lt := fun t ht =>
      ⟨Nat.lt_succ_of_lt (hWF.trade_ids_lt t ht).1,
       Nat.lt_succ_of_lt (hWF.trade_ids_lt t ht).2⟩
    maker := ?_
    map_ids_lt := ?_
    next_pos := Nat.le_succ_of_le hWF.next_pos }
  · intro e he
    obtain ⟨o, ho, hrest⟩ := hWF.buy_link e he
    exact ⟨o, List.mem_append_left _ ho, hrest⟩
  · intro e he
    obtain ⟨o, ho, hrest⟩ := hWF.sell_link e he
    exact ⟨o, List.mem_append_left _ ho, hrest⟩
  · intro e he f hf h1 h2
    have hene : e.id ≠ st.next_order_id := Nat.ne_of_lt (hWF.buy_ids_lt e he)
    have hfne : f.id ≠ st.next_order_id := Nat.ne_of_lt (hWF.sell_ids_lt f hf)
    rw [hrem.2 e.id hene] at h1
    rw [hrem.2 f.id hfne] at h2
    exact hWF.not_crossed e he f hf h1 h2
  · intro o ho
    rcases List.mem_append.mp ho with h | h
    · exact Nat.lt_succ_of_lt (hWF.heap_ids_lt o h)
    · rw [List.mem_singleton] at h
      subst h
      exact Nat.lt_succ_self _
  · intro o ho
    rcases List.mem_append.mp ho with h | h
    · exact Nat.lt_succ_of_lt (hWF.heap_ts_lt o h)
    · rw [List.mem_singleton] at h
      subst h
      exact Nat.lt_succ_self _
  · rw [List.map_append, List.nodup_append]
    refine ⟨hWF.heap_nodup, by simp, ?_⟩
    intro a ha hb
    simp only [List.map_cons, List.map_nil, List.mem_singleton] at hb
    obtain ⟨o, ho, rfl⟩ := List.mem_map.mp ha
    have := hWF.heap_ids_lt o ho
    rw [hb] at this
    exact absurd this (lt_irrefl _)
  · intro o ho
    rcases List.mem_append.mp ho with h | h
    · exact hWF.traded o h
    · rw [List.mem_singleton] at h
      subst h
      have h0 : tradedQty st.next_order_id st.trades = 0 :=
        tradedQty_eq_zero fun t ht =>
          ⟨Nat.ne_of_lt (hWF.trade_ids_lt t ht).1,
           Nat.ne_of_lt (hWF.trade_ids_lt t ht).2⟩
      show tradedQty st.next_order_id st.trades + qty ≤ qty
      omega
  · intro t ht
    obtain ⟨hbs, o, ho, hrest⟩ := hWF.maker t ht
    exact ⟨hbs, o, List.mem_append_left _ ho, hrest⟩
  · intro i hi
    rcases List.mem_append.mp hi with h | h
    · exact Nat.lt_succ_of_lt (hWF.map_ids_lt i h)
    · rcases hm with rfl | rfl
      · cases h
      · rw [List.mem_singleton] at h
        subst h
        exact Nat.lt_succ_self _

end Orderbook

namespace Orderbook

theorem add_limit_order_spec {st : OrderBook} (side : OrderSide) (price : ℚ)
    (qty : Nat) (hWF : WF st) :
    WF (add_limit_order st side price qty).1 ∧
    (add_limit_order st side price qty).2 = st.next_order_id ∧
    (add_limit_order st side price qty).1.next_order_id = st.next_order_id + 1 ∧
    (∀ j, j < st.next_order_id →
      remOf (add_limit_order st side price qty).1.heap j ≤ remOf st.heap j) := by
  cases side
  case BUY =>
    simp only [add_limit_order]
    have hWF1 := WF_register hWF OrderSide.BUY OrderType.LIMIT price qty
      [st.next_order_id] (Or.inr rfl)
    have hrem := remOf_register hWF OrderSide.BUY OrderType.LIMIT price qty
    have hout := match_buy_order_spec st.next_order_id price qty
      { st with
        heap := st.heap ++
          [⟨st.next_order_id, OrderSide.BUY, OrderType.LIMIT, price, qty, qty, st.next_ts⟩],
        order_map := st.order_map ++ [st.next_order_id],
        next_order_id := st.next_order_id + 1, next_ts := st.next_ts + 1 }
      qty hWF1 hrem.1 (Nat.lt_succ_self _)
      (fun e he => hWF.buy_ids_lt e he)
      (fun e he => hWF.sell_ids_lt e he)
      (Nat.le_refl _)
    refine ⟨?_, trivial, ?_, ?_⟩
    · split_ifs with hpos
      · refine {
          buy_sorted := qInsertBuy_pairwise hout.wf.buy_sorted ?_
          sell_sorted := hout.wf.sell_sorted
          buy_link := ?_
          sell_link := hout.wf.sell_link
          buy_ids_lt := ?_
          sell_ids_lt := hout.wf.sell_ids_lt
          buy_ts_lt := ?_
          sell_ts_lt := hout.wf.sell_ts_lt
          not_crossed := ?_
          heap_ids_lt := hout.wf.heap_ids_lt
          heap_ts_lt := hout.wf.heap_ts_lt
          heap_nodup := hout.wf.heap_nodup
          traded := hout.wf.traded
          trade_ids_lt := hout.wf.trade_ids_lt
          maker := hout.wf.maker
          map_ids_lt := hout.wf.map_ids_lt
          next_pos := hout.wf.next_pos }
        · intro x hx
          exact Nat.ne_of_lt (hWF.buy_ts_lt x (hout.buy_sfx.subset hx))
        · intro e he
          rcases mem_qInsertBuy.mp he with rfl | hold
          · obtain ⟨o2, ho2, hs⟩ := hout.shape
              ⟨st.next_order_id, OrderSide.BUY, OrderType.LIMIT, price, qty, qty, st.next_ts⟩
              (List.mem_append_right _ (by simp))
            exact ⟨o2, ho2, hs.1, hs.2.1, hs.2.2.1, hs.2.2.2.1, hs.2.2.2.2.1⟩
          · exact hout.wf.buy_link e hold
        · intro e he
          rcases mem_qInsertBuy.mp he with rfl | hold
          · show st.next_order_id < _
            rw [hout.next_eq]
            exact Nat.lt_succ_self _
          · exact hout.wf.buy_ids_lt e hold
        · intro e he
          rcases mem_qInsertBuy.mp he with rfl | hold
          · show st.next_ts < _
            rw [hout.ts_eq]
            exact Nat.lt_succ_self _
          · exact hout.wf.buy_ts_lt e hold
        · intro e he f hf h1 h2
          rcases mem_qInsertBuy.mp he with rfl | hold
          · exact hout.price_break (Nat.pos_iff_ne_zero.mp hpos) f hf h2
          · exact hout.wf.not_crossed e hold f hf h1 h2
      · exact hout.wf
    · split_ifs with hpos
      · show _ = st.next_order_id + 1
        exact hout.next_eq
      · exact hout.next_eq
    · intro j hj
      have hstep := hrem.2 j (Nat.ne_of_lt hj)
      split_ifs with hpos
      · exact (hout.rem_mono j).trans (le_of_eq hstep)
      · exact (hout.rem_mono j).trans (le_of_eq hstep)
  case SELL =>
    simp only [add_limit_order]
    have hWF1 := WF_register hWF OrderSide.SELL OrderType.LIMIT price qty
      [st.next_order_id] (Or.inr rfl)
    have hrem := remOf_register hWF OrderSide.SELL OrderType.LIMIT price qty
    have hout := match_sell_order_spec st.next_order_id price qty
      { st with
        heap := st.heap ++
          [⟨st.next_order_id, OrderSide.SELL, OrderType.LIMIT, price, qty, qty, st.next_ts⟩],
        order_map := st.order_map ++ [st.next_order_id],
        next_order_id := st.next_order_id + 1, next_ts := st.next_ts + 1 }
      qty hWF1 hrem.1 (Nat.lt_succ_self _)
      (fun e he => hWF.buy_ids_lt e he)
      (fun e he => hWF.sell_ids_lt e he)
      (Nat.le_refl _)
    refine ⟨?_, trivial, ?_, ?_⟩
    · split_ifs with hpos
      · refine {
          buy_sorted := hout.wf.buy_sorted
          sell_sorted := qInsertSell_pairwise hout.wf.sell_sorted ?_
          buy_link := hout.wf.buy_link
          sell_link := ?_
          buy_ids_lt := hout.wf.buy_ids_lt
          sell_ids_lt := ?_
          buy_ts_lt := hout.wf.buy_ts_lt
          sell_ts_lt := ?_
          not_crossed := ?_
          heap_ids_lt := hout.wf.heap_ids_lt
          heap_ts_lt := hout.wf.heap_ts_lt
          heap_nodup := hout.wf.heap_nodup
          traded := hout.wf.traded
          trade_ids_lt := hout.wf.trade_ids_lt
          maker := hout.wf.maker
          map_ids_lt := hout.wf.map_ids_lt
          next_pos := hout.wf.next_pos }
        · intro x hx
          exact Nat.ne_of_lt (hWF.sell_ts_lt x (hout.sell_sfx.subset hx))
        · intro e he
          rcases mem_qInsertSell.mp he with rfl | hold
          · obtain ⟨o2, ho2, hs⟩ := hout.shape
              ⟨st.next_order_id, OrderSide.SELL, OrderType.LIMIT, price, qty, qty, st.next_ts⟩
              (List.mem_append_right _ (by simp))
            exact ⟨o2, ho2, hs.1, hs.2.1, hs.2.2.1, hs.2.2.2.1, hs.2.2.2.2.1⟩
          · exact hout.wf.sell_link e hold
        · intro e he
          rcases mem_qInsertSell.mp he with rfl | hold
          · show st.next_order_id < _
            rw [hout.next_eq]
            exact Nat.lt_succ_self _
          · exact hout.wf.sell_ids_lt e hold
        · intro e he
          rcases mem_qInsertSell.mp he with rfl | hold
          · show st.next_ts < _
            rw [hout.ts_eq]
            exact Nat.lt_succ_self _
          · exact hout.wf.sell_ts_lt e hold
        · intro e he f hf h1 h2
          rcases mem_qInsertSell.mp hf with rfl | hold
          · exact hout.price_break (Nat.pos_iff_ne_zero.mp hpos) e he h1
          · exact hout.wf.not_crossed e he f hold h1 h2
      · exact hout.wf
    · split_ifs with hpos
      · show _ = st.next_order_id + 1
        exact hout.next_eq
      · exact hout.next_eq
    · intro j hj
      have hstep := hrem.2 j (Nat.ne_of_lt hj)
      split_ifs with hpos
      · exact (hout.rem_mono j).trans (le_of_eq hstep)
      · exact (hout.rem_mono j).trans (le_of_eq hstep)

end Orderbook

namespace Orderbook

theorem add_market_order_spec {st : OrderBook} (side : OrderSide) (qty : Nat)
    (hWF : WF st) :
    WF (add_market_order st side qty).1 ∧
    (add_market_order st side qty).1.trades =
      st.trades ++ (add_market_order st side qty).2 ∧
    (∀ e ∈ (add_market_order st side qty).1.buy_orders, e.id < st.next_order_id) ∧
    (∀ e ∈ (add_market_order st side qty).1.sell_orders, e.id < st.next_order_id) ∧
    (∀ i ∈ (add_market_order st side qty).1.order_map, i ∈ st.order_map) ∧
    (add_market_order st side qty).1.next_order_id = st.next_order_id + 1 ∧
    (∀ t ∈ (add_market_order st side qty).2,
      (side = OrderSide.BUY → t.buyer_id = st.next_order_id) ∧
      (side = OrderSide.SELL → t.seller_id = st.next_order_id)) ∧
    remOf (add_market_order st side qty).1.heap st.next_order_id +
      sumQty (add_market_order st side qty).2 = qty ∧
    (remOf (add_market_order st side qty).1.heap st.next_order_id = 0 ∨
      (match side with
       | OrderSide.BUY => (add_market_order st side qty).1.sell_orders
       | OrderSide.SELL => (add_market_order st side qty).1.buy_orders) = []) ∧
    (∀ j, j < st.next_order_id →
      remOf (add_market_order st side qty).1.heap j ≤ remOf st.heap j) := by
  cases side
  case BUY =>
    simp only [add_market_order]
    have hWF1 := WF_register hWF OrderSide.BUY OrderType.MARKET 0 qty [] (Or.inl rfl)
    have hrem := remOf_register hWF OrderSide.BUY OrderType.MARKET 0 qty
    rw [show st.order_map ++ [] = st.order_map from by simp] at hWF1
    have hout := market_buy_sweep_spec st.next_order_id qty
      { st with
        heap := st.heap ++
          [⟨st.next_order_id, OrderSide.BUY, OrderType.MARKET, 0, qty, qty, st.next_ts⟩],
        next_order_id := st.next_order_id + 1, next_ts := st.next_ts + 1 }
      qty hWF1 hrem.1 (Nat.lt_succ_self _)
      (fun e he => hWF.buy_ids_lt e he)
      (fun e he => hWF.sell_ids_lt e he)
      (Nat.le_refl _)
    refine ⟨hout.wf, hout.trades_eq, ?_, ?_, hout.map_sub, hout.next_eq, ?_, hout.rem_mid,
      Or.imp id id hout.fill_or_empty, ?_⟩
    · exact fun e he => hWF.buy_ids_lt e (hout.buy_sfx.subset he)
    · exact fun e he => hWF.sell_ids_lt e (hout.sell_sfx.subset he)
    · intro t ht
      exact ⟨fun _ => hout.all_mine t ht, fun h => absurd h (by decide)⟩
    · intro j hj
      exact (hout.rem_mono j).trans (le_of_eq (hrem.2 j (Nat.ne_of_lt hj)))
  case SELL =>
    simp only [add_market_order]
    have hWF1 := WF_register hWF OrderSide.SELL OrderType.MARKET 0 qty [] (Or.inl rfl)
    have hrem := remOf_register hWF OrderSide.SELL OrderType.MARKET 0 qty
    rw [show st.order_map ++ [] = st.order_map from by simp] at hWF1
    have hout := market_sell_sweep_spec st.next_order_id qty
      { st with
        heap := st.heap ++
          [⟨st.next_order_id, OrderSide.SELL, OrderType.MARKET, 0, qty, qty, st.next_ts⟩],
        next_order_id := st.next_order_id + 1, next_ts := st.next_ts + 1 }
      qty hWF1 hrem.1 (Nat.lt_succ_self _)
      (fun e he => hWF.buy_ids_lt e he)
      (fun e he => hWF.sell_ids_lt e he)
      (Nat.le_refl _)
    refine ⟨hout.wf, hout.trades_eq, ?_, ?_, hout.map_sub, hout.next_eq, ?_, hout.rem_mid,
      Or.imp id id hout.fill_or_empty, ?_⟩
    · exact fun e he => hWF.buy_ids_lt e (hout.buy_sfx.subset he)
    · exact fun e he => hWF.sell_ids_lt e (hout.sell_sfx.subset he)
    · intro t ht
      exact ⟨fun h => absurd h (by decide), fun _ => hout.all_mine t ht⟩
    · intro j hj
      exact (hout.rem_mono j).trans (le_of_eq (hrem.2 j (Nat.ne_of_lt hj)))

theorem cancel_order_mem {st : OrderBook} {i : Nat} (hi : i ∈ st.order_map) :
    cancel_order st i =
      ({ st with heap := setRemZero st.heap i,
                 order_map := eraseId st.order_map i }, true) := by
  simp [cancel_order, hi]

theorem cancel_order_not_mem {st : OrderBook} {i : Nat} (hi : i ∉ st.order_map) :
    cancel_order st i = (st, false) := by
  simp [cancel_order, hi]

theorem WF_cancel_order {st : OrderBook} (i : Nat) (hWF : WF st) :
    WF (cancel_order st i).1 := by
  by_cases hi : i ∈ st.order_map
  · rw [cancel_order_mem hi]
    have hfwd : ∀ o ∈ st.heap, ∃ o2 ∈ setRemZero st.heap i, shapeEq o2 o :=
      fun o ho =>
        let ⟨o2, ho2, hs, _⟩ := mem_setRemZero_shape st.heap i ho
        ⟨o2, ho2, hs⟩
    refine {
      buy_sorted := hWF.buy_sorted
      sell_sorted := hWF.sell_sorted
      buy_link := ?_
      sell_link := ?_
      buy_ids_lt := hWF.buy_ids_lt
      sell_ids_lt := hWF.sell_ids_lt
      buy_ts_lt := hWF.buy_ts_lt
      sell_ts_lt := hWF.sell_ts_lt
      not_crossed := ?_
      heap_ids_lt := ?_
      heap_ts_lt := ?_
      heap_nodup := ?_
      traded := ?_
      trade_ids_lt := hWF.trade_ids_lt
      maker := ?_
      map_ids_lt := fun j hj => hWF.map_ids_lt j (eraseId_subset hj)
      next_pos := hWF.next_pos }
    · intro e he
      obtain ⟨o, ho, hid, hp, ht, hty, hsd⟩ := hWF.buy_link e he
      obtain ⟨o2, ho2, hs⟩ := hfwd o ho
      exact ⟨o2, ho2, hs.1.trans hid, hs.2.1.trans hp, hs.2.2.1.trans ht,
        hs.2.2.2.1.trans hty, hs.2.2.2.2.1.trans hsd⟩
    · intro e he
      obtain ⟨o, ho, hid, hp, ht, hty, hsd⟩ := hWF.sell_link e he
      obtain ⟨o2, ho2, hs⟩ := hfwd o ho
      exact ⟨o2, ho2, hs.1.trans hid, hs.2.1.trans hp, hs.2.2.1.trans ht,
        hs.2.2.2.1.trans hty, hs.2.2.2.2.1.trans hsd⟩
    · intro e he f hf h1 h2
      refine hWF.not_crossed e he f hf ?_ ?_
      · exact lt_of_lt_of_le h1 (remOf_setRemZero_le st.heap i e.id)
      · exact lt_of_lt_of_le h2 (remOf_setRemZero_le st.heap i f.id)
    · intro o2 ho2
      obtain ⟨o, ho, hs, _⟩ := setRemZero_shape st.heap i ho2
      exact hs.1 ▸ hWF.heap_ids_lt o ho
    · intro o2 ho2
      obtain ⟨o, ho, hs, _⟩ := setRemZero_shape st.heap i ho2
      exact hs.2.2.1 ▸ hWF.heap_ts_lt o ho
    · show ((setRemZero st.heap i).map Order.id).Nodup
      rw [setRemZero_map_id]
      exact hWF.heap_nodup
    · intro o2 ho2
      obtain ⟨o, ho, hs, hrle⟩ := setRemZero_shape st.heap i ho2
      have hT := hWF.traded o ho
      show tradedQty o2.id st.trades + o2.remaining_quantity ≤ o2.quantity
      rw [hs.1, hs.2.2.2.2.2]
      omega
    · intro t ht
      obtain ⟨hbs, o, ho, hty, hp, hid⟩ := hWF.maker t ht
      obtain ⟨o2, ho2, hs⟩ := hfwd o ho
      exact ⟨hbs, o2, ho2, hs.2.2.2.1.trans hty, hp.trans hs.2.1.symm,
        hs.1.trans hid⟩
  · rw [cancel_order_not_mem hi]
    exact hWF

theorem WF_applyOp {st : OrderBook} (op : Op) (hWF : WF st) :
    WF (applyOp st op) := by
  cases op with
  | limit side price qty => exact (add_limit_order_spec side price qty hWF).1
  | market side qty => exact (add_market_order_spec side qty hWF).1
  | cancel i => exact WF_cancel_order i hWF

theorem WF_foldl : ∀ (ops : List Op) (st : OrderBook), WF st →
    WF (ops.foldl applyOp st) := by
  intro ops
  induction ops with
  | nil => exact fun st h => h
  | cons op rest ih => exact fun st h => ih _ (WF_applyOp op h)

theorem WF_applyOps (ops : List Op) : WF (applyOps ops) :=
  WF_foldl ops emptyBook WF_emptyBook

end Orderbook

namespace Orderbook

theorem cancel_order_next_eq (st : OrderBook) (j : Nat) :
    (cancel_order st j).1.next_order_id = st.next_order_id := by
  by_cases hj : j ∈ st.order_map
  · rw [cancel_order_mem hj]
  · rw [cancel_order_not_mem hj]

theorem limitIds_spec : ∀ (ops : List Op) (st : OrderBook), WF st →
    List.Chain' (fun a b => a < b) (limitIds st ops) ∧
    ∀ i ∈ limitIds st ops, st.next_order_id ≤ i := by
  intro ops
  induction ops with
  | nil =>
    intro st _
    exact ⟨List.chain'_nil, by simp [limitIds]⟩
  | cons op rest ih =>
    intro st hWF
    cases op with
    | limit side price qty =>
      have hspec := add_limit_order_spec side price qty hWF
      have hrec := ih (add_limit_order st side price qty).1 hspec.1
      simp only [limitIds]
      constructor
      · refine List.chain'_cons'.mpr ⟨?_, hrec.1⟩
        intro b hb
        have hble := hrec.2 b (List.mem_of_mem_head? hb)
        rw [hspec.2.2.1] at hble
        rw [hspec.2.1]
        omega
      · intro i hi
        rcases List.mem_cons.mp hi with rfl | hmem
        · rw [hspec.2.1]
        · have hge := hrec.2 i hmem
          rw [hspec.2.2.1] at hge
          omega
    | market side qty =>
      have hspec := add_market_order_spec side qty hWF
      have hrec := ih (applyOp st (Op.market side qty)) (WF_applyOp _ hWF)
      simp only [limitIds]
      refine ⟨hrec.1, fun i hi => ?_⟩
      have hge := hrec.2 i hi
      have hn : (applyOp st (Op.market side qty)).next_order_id =
          st.next_order_id + 1 := hspec.2.2.2.2.2.1
      rw [hn] at hge
      omega
    | cancel j =>
      have hrec := ih (applyOp st (Op.cancel j)) (WF_applyOp _ hWF)
      simp only [limitIds]
      refine ⟨hrec.1, fun i hi => ?_⟩
      have hge := hrec.2 i hi
      have hn : (applyOp st (Op.cancel j)).next_order_id = st.next_order_id :=
        cancel_order_next_eq st j
      rw [hn] at hge
      omega

end Orderbook

namespace Orderbook

/-- A small book used by several witnesses: one resting sell, then a buy that
fully fills against it at the resting price. -/
def crossPair : List Op :=
  [Op.limit OrderSide.SELL (10 : ℚ) 5, Op.limit OrderSide.BUY (10 : ℚ) 5]

/-- C1: every Trade's execution price is the price of the resting (maker)
order at match time.  In the engine the maker is always the order that was
admitted in an earlier call, hence the trade party with the smaller id (ids
are assigned in admission order and a trade always pairs the incoming order
with an already-resting one); its price is immutable after admission.  The
theorem exhibits, for every trade in every reachable state, the heap order
with that smaller id: it is a LIMIT order (so never a market order) and the
trade price equals its price — never the incoming (larger-id, taker) order's
price field. -/
theorem maker_price_correct (ops : List Op) (t : Trade)
    (ht : t ∈ (applyOps ops).trades) :
    t.buyer_id ≠ t.seller_id ∧
    ∃ o ∈ (applyOps ops).heap, o.type = OrderType.LIMIT ∧ t.price = o.price ∧
      o.id = min t.buyer_id t.seller_id :=
  (WF_applyOps ops).maker t ht

theorem maker_price_correct_witness :
    (Trade.mk 2 1 (10 : ℚ) 5).buyer_id ≠ (Trade.mk 2 1 (10 : ℚ) 5).seller_id ∧
    ∃ o ∈ (applyOps crossPair).heap, o.type = OrderType.LIMIT ∧
      (Trade.mk 2 1 (10 : ℚ) 5).price = o.price ∧
      o.id = min (Trade.mk 2 1 (10 : ℚ) 5).buyer_id (Trade.mk 2 1 (10 : ℚ) 5).seller_id :=
  maker_price_correct crossPair (Trade.mk 2 1 (10 : ℚ) 5) (by decide)

/-- C2: after any sequence of public operations on a fresh engine, if both
sides still have an order with positive remaining quantity then the best bid
is strictly below the best ask — the book is never crossed or locked. -/
theorem book_never_crossed (ops : List Op)
    (hb : hasActiveBuy (applyOps ops)) (hs : hasActiveSell (applyOps ops)) :
    get_best_bid (applyOps ops) < get_best_ask (applyOps ops) := by
  have hWF := WF_applyOps ops
  obtain ⟨e, he, hepos, hbid, _⟩ := bestActivePrice_spec hWF.buy_sorted hb
  obtain ⟨f, hf, hfpos, hask, _⟩ := bestActivePrice_spec hWF.sell_sorted hs
  show bestActivePrice (applyOps ops).heap (applyOps ops).buy_orders <
    bestActivePrice (applyOps ops).heap (applyOps ops).sell_orders
  rw [hbid, hask]
  exact hWF.not_crossed e he f hf hepos hfpos

theorem book_never_crossed_witness :
    get_best_bid (applyOps [Op.limit OrderSide.BUY (10 : ℚ) 5,
      Op.limit OrderSide.SELL (20 : ℚ) 5]) <
    get_best_ask (applyOps [Op.limit OrderSide.BUY (10 : ℚ) 5,
      Op.limit OrderSide.SELL (20 : ℚ) 5]) :=
  book_never_crossed [Op.limit OrderSide.BUY (10 : ℚ) 5,
    Op.limit OrderSide.SELL (20 : ℚ) 5] (by decide) (by decide)

/-- C3: the ranking induced by the source comparators is exactly the spec's
price-time priority (for bids: higher price first, ties to the earlier
arrival; for asks: lower price first, ties to the earlier arrival), and in
every reachable state both resting queues are totally ordered by that
ranking, each entry outranking all entries behind it.  Since every matching
loop consumes orders from the front of its queue only, matching consumes
resting orders in exactly this rank order. -/
theorem price_time_priority (ops : List Op) :
    (∀ a b : QEntry, buyOutranks a b ↔
      (a.price > b.price ∨ (a.price = b.price ∧ a.ts < b.ts))) ∧
    (∀ a b : QEntry, sellOutranks a b ↔
      (a.price < b.price ∨ (a.price = b.price ∧ a.ts < b.ts))) ∧
    (applyOps ops).buy_orders.Pairwise buyOutranks ∧
    (applyOps ops).sell_orders.Pairwise sellOutranks :=
  ⟨buyOutranks_iff, sellOutranks_iff,
   (WF_applyOps ops).buy_sorted, (WF_applyOps ops).sell_sorted⟩

/-- C4: the spec's Scenario 1, computed on the model: six limit orders get
ids 1–6, the aggressive Buy 200@101.10 gets id 7 and produces exactly the two
expected trades at the resting prices; afterwards id 7 is fully filled and
not resting, id 4 retains 25, and the best bid is 100.75. -/
theorem scenario1_behavior :
    p10050 = (100.50 : ℚ) ∧ p10025 = (100.25 : ℚ) ∧ p10075 = (100.75 : ℚ) ∧
    p10100 = (101.00 : ℚ) ∧ p10125 = (101.25 : ℚ) ∧ p10090 = (100.90 : ℚ) ∧
    p10110 = (101.10 : ℚ) ∧
    limitIds emptyBook scenario1 = [1, 2, 3, 4, 5, 6, 7] ∧
    (applyOps scenario1).trades =
      [Trade.mk 7 6 p10090 75, Trade.mk 7 4 p10100 125] ∧
    remOf (applyOps scenario1).heap 7 = 0 ∧
    (∀ e ∈ (applyOps scenario1).buy_orders, e.id ≠ 7) ∧
    (∀ e ∈ (applyOps scenario1).sell_orders, e.id ≠ 7) ∧
    remOf (applyOps scenario1).heap 4 = 25 ∧
    get_best_bid (applyOps scenario1) = p10075 := by
  refine ⟨?_, ?_, ?_, by norm_num [p10100], ?_, ?_, ?_, by decide⟩ <;>
    · show Rat.mk' _ _ _ _ = _
      rw [Rat.mk'_eq_divInt, Rat.divInt_eq_div]
      norm_num

/-- C5: in every reachable state, every order object satisfies
`remaining ≤ original` and its total traded quantity is at most its original
quantity (indeed traded + remaining ≤ original; `0 ≤ remaining` holds by the
`Nat` type, matching the unsigned `uint32_t`), and one further operation of
any kind never increases the remaining quantity of an already-allocated
order id. -/
theorem remaining_bounds (ops : List Op) :
    (∀ o ∈ (applyOps ops).heap,
      o.remaining_quantity ≤ o.quantity ∧
      tradedQty o.id (applyOps ops).trades ≤ o.quantity ∧
      tradedQty o.id (applyOps ops).trades + o.remaining_quantity ≤ o.quantity) ∧
    (∀ op : Op, ∀ j < (applyOps ops).next_order_id,
      remOf (applyOp (applyOps ops) op).heap j ≤ remOf (applyOps ops).heap j) := by
  constructor
  · intro o ho
    have h := (WF_applyOps ops).traded o ho
    exact ⟨by omega, by omega, h⟩
  · intro op j hj
    have hWF := WF_applyOps ops
    cases op with
    | limit side price qty =>
      exact (add_limit_order_spec side price qty hWF).2.2.2 j hj
    | market side qty =>
      exact (add_market_order_spec side qty hWF).2.2.2.2.2.2.2.2.2 j hj
    | cancel i =>
      show remOf (cancel_order (applyOps ops) i).1.heap j ≤ _
      by_cases hi : i ∈ (applyOps ops).order_map
      · rw [cancel_order_mem hi]
        exact remOf_setRemZero_le _ _ _
      · rw [cancel_order_not_mem hi]

theorem remaining_bounds_witness :
    ((Order.mk 1 OrderSide.SELL OrderType.LIMIT (10 : ℚ) 5 0 0).remaining_quantity ≤
        (Order.mk 1 OrderSide.SELL OrderType.LIMIT (10 : ℚ) 5 0 0).quantity ∧
      tradedQty 1 (applyOps crossPair).trades ≤ 5 ∧
      tradedQty 1 (applyOps crossPair).trades + 0 ≤ 5) ∧
    remOf (applyOp (applyOps crossPair) (Op.cancel 1)).heap 1 ≤
      remOf (applyOps crossPair).heap 1 :=
  ⟨(remaining_bounds crossPair).1
      (Order.mk 1 OrderSide.SELL OrderType.LIMIT (10 : ℚ) 5 0 0) (by decide),
   (remaining_bounds crossPair).2 (Op.cancel 1) 1 (by decide)⟩

end Orderbook

namespace Orderbook

/-- A book with one resting sell, used by several witnesses. -/
def oneSell : List Op := [Op.limit OrderSide.SELL (10 : ℚ) 5]

/-- A book with one resting buy, used by several witnesses. -/
def oneBuy : List Op := [Op.limit OrderSide.BUY (10 : ℚ) 5]

/-- C6 counterexample: after a sell 5@10 (id 1) and a buy 5@10 (id 2), the
incoming buy is fully filled on arrival (remaining 0 — terminal) yet stays in
`order_map`, so `cancel_order 2` returns `true` although id 2 did not have
`remaining > 0` at the time of the call — refuting "returns true iff the id
was present with remaining > 0". -/
theorem cancel_terminal_counterexample :
    remOf (applyOps crossPair).heap 2 = 0 ∧
    2 ∈ (applyOps crossPair).order_map ∧
    (cancel_order (applyOps crossPair) 2).2 = true := by decide

/-- C6 (amended): `cancel_order id` returns true iff the id is present in
`order_map` at call time; when true it zeroes the order's remaining quantity
and removes the id from the map, when false it leaves the whole state
unchanged (and no exception is raised — the function is total).  Presence in
the map does not imply `remaining > 0`: an incoming limit order fully filled
at admission stays in the map with remaining 0, and cancelling it still
returns true. -/
theorem cancel_order_spec (st : OrderBook) (i : Nat) :
    ((cancel_order st i).2 = true ↔ i ∈ st.order_map) ∧
    ((cancel_order st i).2 = true →
      remOf (cancel_order st i).1.heap i = 0 ∧
      i ∉ (cancel_order st i).1.order_map) ∧
    ((cancel_order st i).2 = false → (cancel_order st i).1 = st) := by
  by_cases hi : i ∈ st.order_map
  · rw [cancel_order_mem hi]
    refine ⟨by simp [hi], ?_, by simp⟩
    intro _
    constructor
    · show remOf (setRemZero st.heap i) i = 0
      rw [remOf_setRemZero, if_pos rfl]
    · show i ∉ eraseId st.order_map i
      intro hmem
      exact (mem_eraseId.mp hmem).2 rfl
  · rw [cancel_order_not_mem hi]
    exact ⟨by simp [hi], by simp, fun _ => rfl⟩

theorem cancel_order_spec_witness :
    ((cancel_order (applyOps crossPair) 2).2 = true ↔
      2 ∈ (applyOps crossPair).order_map) ∧
    remOf (cancel_order (applyOps crossPair) 2).1.heap 2 = 0 ∧
    2 ∉ (cancel_order (applyOps crossPair) 2).1.order_map ∧
    (cancel_order (applyOps crossPair) 9).1 = applyOps crossPair :=
  ⟨(cancel_order_spec (applyOps crossPair) 2).1,
   ((cancel_order_spec (applyOps crossPair) 2).2.1 (by decide)).1,
   ((cancel_order_spec (applyOps crossPair) 2).2.1 (by decide)).2,
   (cancel_order_spec (applyOps crossPair) 9).2.2 (by decide)⟩

/-- C7: a market order matches with the crossing test unconditionally true —
after the call either the order traded its full quantity or the opposite
queue has been completely emptied, with no price condition ever stopping the
sweep — it never enters either resting queue (its id appears in no queue
entry) nor the ledger regardless of remaining quantity (any unfilled
remainder is dropped), and it returns exactly the trades appended to the
trade log by this call, in execution order. -/
theorem market_order_behavior (ops : List Op) (side : OrderSide) (qty : Nat) :
    (add_market_order (applyOps ops) side qty).1.trades =
      (applyOps ops).trades ++ (add_market_order (applyOps ops) side qty).2 ∧
    (∀ e ∈ (add_market_order (applyOps ops) side qty).1.buy_orders,
      e.id ≠ (applyOps ops).next_order_id) ∧
    (∀ e ∈ (add_market_order (applyOps ops) side qty).1.sell_orders,
      e.id ≠ (applyOps ops).next_order_id) ∧
    (applyOps ops).next_order_id ∉
      (add_market_order (applyOps ops) side qty).1.order_map ∧
    (sumQty (add_market_order (applyOps ops) side qty).2 = qty ∨
      (match side with
       | OrderSide.BUY => (add_market_order (applyOps ops) side qty).1.sell_orders
       | OrderSide.SELL => (add_market_order (applyOps ops) side qty).1.buy_orders) = []) := by
  obtain ⟨hwf, htr, hbq, hsq, hmap, hnext, hmine, hrem, hfe, hmono⟩ :=
    add_market_order_spec side qty (WF_applyOps ops)
  refine ⟨htr, ?_, ?_, ?_, ?_⟩
  · exact fun e he => Nat.ne_of_lt (hbq e he)
  · exact fun e he => Nat.ne_of_lt (hsq e he)
  · exact fun hmem =>
      absurd ((WF_applyOps ops).map_ids_lt _ (hmap _ hmem)) (lt_irrefl _)
  · rcases hfe with h0 | hq
    · exact Or.inl (by omega)
    · exact Or.inr hq

theorem market_order_behavior_witness :
    (add_market_order (applyOps oneSell) OrderSide.BUY 3).1.trades =
      (applyOps oneSell).trades ++
        (add_market_order (applyOps oneSell) OrderSide.BUY 3).2 ∧
    (QEntry.mk 1 (10 : ℚ) 0).id ≠ (applyOps oneSell).next_order_id ∧
    (applyOps oneSell).next_order_id ∉
      (add_market_order (applyOps oneSell) OrderSide.BUY 3).1.order_map ∧
    (sumQty (add_market_order (applyOps oneSell) OrderSide.BUY 3).2 = 3 ∨
      (add_market_order (applyOps oneSell) OrderSide.BUY 3).1.sell_orders = []) :=
  ⟨(market_order_behavior oneSell OrderSide.BUY 3).1,
   (market_order_behavior oneSell OrderSide.BUY 3).2.2.1
     (QEntry.mk 1 (10 : ℚ) 0) (by decide),
   (market_order_behavior oneSell OrderSide.BUY 3).2.2.2.1,
   (market_order_behavior oneSell OrderSide.BUY 3).2.2.2.2⟩

/-- C8: `add_limit_order` always returns the current id counter (it never
fails after entry), the ids handed out by successive `add_limit_order` calls
on one engine instance are strictly increasing (hence never reused) and all
positive, and on a fresh engine the first admitted limit order gets id 1. -/
theorem limit_order_ids (ops : List Op) (side : OrderSide) (price : ℚ)
    (qty : Nat) :
    (add_limit_order (applyOps ops) side price qty).2 =
      (applyOps ops).next_order_id ∧
    List.Chain' (fun a b => a < b) (limitIds emptyBook ops) ∧
    (∀ i ∈ limitIds emptyBook ops, 1 ≤ i) ∧
    (limitIds emptyBook (Op.limit side price qty :: ops)).head? = some 1 := by
  refine ⟨(add_limit_order_spec side price qty (WF_applyOps ops)).2.1,
    (limitIds_spec ops emptyBook WF_emptyBook).1, ?_, ?_⟩
  · exact fun i hi => (limitIds_spec ops emptyBook WF_emptyBook).2 i hi
  · simp only [limitIds]
    rw [(add_limit_order_spec side price qty WF_emptyBook).2.1]
    rfl

theorem limit_order_ids_witness :
    (add_limit_order (applyOps crossPair) OrderSide.BUY (10 : ℚ) 1).2 =
      (applyOps crossPair).next_order_id ∧
    List.Chain' (fun a b => a < b) (limitIds emptyBook crossPair) ∧
    1 ≤ 1 ∧
    (limitIds emptyBook
      (Op.limit OrderSide.BUY (10 : ℚ) 1 :: crossPair)).head? = some 1 :=
  ⟨(limit_order_ids crossPair OrderSide.BUY (10 : ℚ) 1).1,
   (limit_order_ids crossPair OrderSide.BUY (10 : ℚ) 1).2.1,
   (limit_order_ids crossPair OrderSide.BUY (10 : ℚ) 1).2.2.1 1 (by decide),
   (limit_order_ids crossPair OrderSide.BUY (10 : ℚ) 1).2.2.2⟩

/-- C9 counterexample: the "no orders" return value of `get_best_bid` is the
plain price `0.0`, which is not a distinct non-price sentinel: the engine
admits a price-0 limit order (no validation) and then returns the same value
`0` as a legitimate best bid while the side has an active order. -/
theorem best_bid_sentinel_counterexample :
    get_best_bid (applyOps []) = 0 ∧
    ¬ hasActiveBuy (applyOps []) ∧
    hasActiveBuy (applyOps [Op.limit OrderSide.BUY (0 : ℚ) 5]) ∧
    get_best_bid (applyOps [Op.limit OrderSide.BUY (0 : ℚ) 5]) = 0 := by decide

/-- C9 (amended): when a side has no active order the best-price query
returns `0.0` — not a distinct sentinel, since `0.0` coincides with the price
of an admittable (unvalidated) zero-price order; otherwise it returns the
price of the highest-priority order with positive remaining quantity on that
side. -/
theorem best_price_queries (ops : List Op) :
    (¬ hasActiveBuy (applyOps ops) → get_best_bid (applyOps ops) = 0) ∧
    (hasActiveBuy (applyOps ops) → ∃ e ∈ (applyOps ops).buy_orders,
      0 < remOf (applyOps ops).heap e.id ∧
      get_best_bid (applyOps ops) = e.price ∧
      ∀ f ∈ (applyOps ops).buy_orders,
        0 < remOf (applyOps ops).heap f.id → f = e ∨ buyOutranks e f) ∧
    (¬ hasActiveSell (applyOps ops) → get_best_ask (applyOps ops) = 0) ∧
    (hasActiveSell (applyOps ops) → ∃ e ∈ (applyOps ops).sell_orders,
      0 < remOf (applyOps ops).heap e.id ∧
      get_best_ask (applyOps ops) = e.price ∧
      ∀ f ∈ (applyOps ops).sell_orders,
        0 < remOf (applyOps ops).heap f.id → f = e ∨ sellOutranks e f) := by
  have hWF := WF_applyOps ops
  refine ⟨?_, ?_, ?_, ?_⟩
  · intro h
    apply bestActivePrice_no_active
    intro e he
    by_contra hne
    exact h ⟨e, he, Nat.pos_of_ne_zero hne⟩
  · exact fun h => bestActivePrice_spec hWF.buy_sorted h
  · intro h
    apply bestActivePrice_no_active
    intro e he
    by_contra hne
    exact h ⟨e, he, Nat.pos_of_ne_zero hne⟩
  · exact fun h => bestActivePrice_spec hWF.sell_sorted h

theorem best_price_queries_witness :
    (∃ e ∈ (applyOps oneBuy).buy_orders,
      0 < remOf (applyOps oneBuy).heap e.id ∧
      get_best_bid (applyOps oneBuy) = e.price ∧
      ∀ f ∈ (applyOps oneBuy).buy_orders,
        0 < remOf (applyOps oneBuy).heap f.id → f = e ∨ buyOutranks e f) ∧
    get_best_ask (applyOps oneBuy) = 0 :=
  ⟨(best_price_queries oneBuy).2.1 (by decide),
   (best_price_queries oneBuy).2.2.1 (by decide)⟩

/-- C10: a market order consumes an id from the same counter as limit orders
but is never registered in the ledger: its id (the one stamped on every trade
it generates, on the taker side) is absent from `order_map`, a subsequent
`cancel_order` on it returns false and changes nothing, and the next
`add_limit_order` returns the successor id, skipping the one the market order
consumed. -/
theorem market_id_never_in_ledger (ops : List Op) (side : OrderSide)
    (qty : Nat) (side2 : OrderSide) (price2 : ℚ) (qty2 : Nat) :
    (add_market_order (applyOps ops) side qty).1.next_order_id =
      (applyOps ops).next_order_id + 1 ∧
    (applyOps ops).next_order_id ∉
      (add_market_order (applyOps ops) side qty).1.order_map ∧
    (∀ t ∈ (add_market_order (applyOps ops) side qty).2,
      (side = OrderSide.BUY → t.buyer_id = (applyOps ops).next_order_id) ∧
      (side = OrderSide.SELL → t.seller_id = (applyOps ops).next_order_id)) ∧
    cancel_order (add_market_order (applyOps ops) side qty).1
      (applyOps ops).next_order_id =
      ((add_market_order (applyOps ops) side qty).1, false) ∧
    (add_limit_order (add_market_order (applyOps ops) side qty).1
      side2 price2 qty2).2 = (applyOps ops).next_order_id + 1 := by
  obtain ⟨hwf, htr, hbq, hsq, hmap, hnext, hmine, hrem, hfe, hmono⟩ :=
    add_market_order_spec side qty (WF_applyOps ops)
  have hnotin : (applyOps ops).next_order_id ∉
      (add_market_order (applyOps ops) side qty).1.order_map := fun hmem =>
    absurd ((WF_applyOps ops).map_ids_lt _ (hmap _ hmem)) (lt_irrefl _)
  refine ⟨hnext, hnotin, hmine, cancel_order_not_mem hnotin, ?_⟩
  rw [(add_limit_order_spec side2 price2 qty2 hwf).2.1, hnext]

theorem market_id_never_in_ledger_witness :
    (add_market_order (applyOps oneSell) OrderSide.BUY 3).1.next_order_id =
      (applyOps oneSell).next_order_id + 1 ∧
    (Trade.mk 2 1 (10 : ℚ) 3).buyer_id = (applyOps oneSell).next_order_id ∧
    cancel_order (add_market_order (applyOps oneSell) OrderSide.BUY 3).1
      (applyOps oneSell).next_order_id =
      ((add_market_order (applyOps oneSell) OrderSide.BUY 3).1, false) ∧
    (add_limit_order (add_market_order (applyOps oneSell) OrderSide.BUY 3).1
      OrderSide.BUY (5 : ℚ) 1).2 = (applyOps oneSell).next_order_id + 1 :=
  ⟨(market_id_never_in_ledger oneSell OrderSide.BUY 3 OrderSide.BUY (5 : ℚ) 1).1,
   ((market_id_never_in_ledger oneSell OrderSide.BUY 3 OrderSide.BUY (5 : ℚ) 1).2.2.1
     (Trade.mk 2 1 (10 : ℚ) 3) (by decide)).1 rfl,
   (market_id_never_in_ledger oneSell OrderSide.BUY 3 OrderSide.BUY (5 : ℚ) 1).2.2.2.1,
   (market_id_never_in_ledger oneSell OrderSide.BUY 3 OrderSide.BUY (5 : ℚ) 1).2.2.2.2⟩

end Orderbook
